import Mathlib

/-!
# Reference-counted garbage collector: `pointer<T, Size>` and its tracking table

A shallow embedding of `gc_details.h`, `gc_pointer.h` and `gc_iterator.h`.

* Addresses (`T*`) are natural numbers, counted in elements of `T`, `0` being
  the null pointer; the pointers of a cursor are integers, since `begin()` and
  `end()` add a signed `int` to an address.
* The C++ type `unsigned` is a natural number below `UINT_MOD = 2 ^ 32`;
  `++` and `--` on it wrap modulo `UINT_MOD`.
* The static list `ref_container_` is a `List ptr_details`, the front of the
  `std::list` being the head of the list.  An iterator into it is a position;
  `end()` is `none`.
* Dereferencing `end()` has no defined behaviour: the operations that do so
  return `none`.
* `delete` and `delete[]` are recorded in a log of `FreeEvent`s.
* In `collect`, the fields `p->mem_ptr` and `p->is_array` are read after
  `ref_container_.remove(*p)`; they are taken as the record had them when the
  scan stopped on it.
* The template argument `Size` is an `Int`, converted to `unsigned` where the
  code stores it in an `unsigned`; an `unsigned` stored in an `int` is
  converted by `toInt32` (two's complement).
* The operators of a cursor return the position of the element they refer to,
  or the exception thrown, together with the cursor afterwards.
* Console output and the `atexit` registration are left out.
-/

namespace GC

/-- Number of values of the C++ type `unsigned`. -/
def UINT_MOD : Nat := 4294967296

/-- Conversion of a signed integer (`int`, `ptrdiff_t`) to `unsigned`. -/
def toUnsigned (n : Int) : Nat := (n % 4294967296).toNat

/-- The operator `++` on an `unsigned`. -/
def incr (n : Nat) : Nat := (n + 1) % UINT_MOD

/-- The operator `--` on an `unsigned`. -/
def decr (n : Nat) : Nat := (n + UINT_MOD - 1) % UINT_MOD

/-- The class `ptr_details<T>` of `gc_details.h`. -/
structure ptr_details where
  refcount : Nat
  mem_ptr : Nat
  is_array : Bool
  array_size : Nat
deriving DecidableEq, Repr

/-- The constructor `ptr_details(T* m_ptr, const unsigned size)`. -/
def ptr_details.ctor (m_ptr : Nat) (size : Nat) : ptr_details :=
  if size ≠ 0 then ⟨1, m_ptr, true, size⟩ else ⟨1, m_ptr, false, 0⟩

/-- The statement `++p->refcount`. -/
def incRef (r : ptr_details) : ptr_details :=
  ⟨incr r.refcount, r.mem_ptr, r.is_array, r.array_size⟩

/-- The statement `--p->refcount`. -/
def decRef (r : ptr_details) : ptr_details :=
  ⟨decr r.refcount, r.mem_ptr, r.is_array, r.array_size⟩

/-- The statement `if (p->refcount) { --p->refcount; }` of the destructor. -/
def decRefIfPositive (r : ptr_details) : ptr_details :=
  if r.refcount ≠ 0 then decRef r else r

/-- The statement `p->refcount = 0` of `shutdown`. -/
def zeroRef (r : ptr_details) : ptr_details :=
  ⟨0, r.mem_ptr, r.is_array, r.array_size⟩

/-- The data members of a `pointer<T, Size>` object. -/
structure pointer where
  addr_ : Nat
  is_array_ : Bool
  array_size_ : Nat
deriving DecidableEq, Repr

/-- A call of `delete` (`viaArray = false`) or `delete[]` (`viaArray = true`). -/
structure FreeEvent where
  addr : Nat
  viaArray : Bool
deriving DecidableEq, Repr

/-- The function `pointer::find_ptr_info`: the position of the first record whose `mem_ptr`
is `ptr`, or `none` for `end()`. -/
def find_ptr_info : List ptr_details → Nat → Option Nat
  | [], _ => none
  | r :: rs, ptr =>
    if r.mem_ptr = ptr then some 0 else (find_ptr_info rs ptr).map (· + 1)

/-- Apply `f` to the record at position `p` (a write through the iterator). -/
def modifyAt (f : ptr_details → ptr_details) : List ptr_details → Nat → List ptr_details
  | [], _ => []
  | r :: rs, 0 => f r :: rs
  | r :: rs, p + 1 => r :: modifyAt f rs p

/-- The record the lookup of `a` lands on, if any. -/
def recordOf (t : List ptr_details) (a : Nat) : Option ptr_details :=
  match find_ptr_info t a with
  | some p => t[p]?
  | none => none

/-- The refcount of the record the lookup of `a` lands on, if any. -/
def refcountOf (t : List ptr_details) (a : Nat) : Option Nat :=
  (recordOf t a).map (·.refcount)

/-- The call `std::list::remove(value)`: erase every element equal to `value`, where
`operator==` on `ptr_details` compares `mem_ptr` only. -/
def list_remove (t : List ptr_details) (value : ptr_details) : List ptr_details :=
  t.filter (fun r => r.mem_ptr != value.mem_ptr)

/-- The `for` loop of `collect`: the first record that does not satisfy
`p->refcount > 0`, or `none` when the scan reaches `end()`. -/
def scanUnreferenced (t : List ptr_details) : Option ptr_details :=
  t.find? (fun r => !decide (r.refcount > 0))

/-- The release performed for the record the scan stopped on: nothing for a null
`mem_ptr`, `delete[]` when `is_array`, else `delete`. -/
def releaseOf (p : ptr_details) : List FreeEvent :=
  if p.mem_ptr ≠ 0 then [⟨p.mem_ptr, p.is_array⟩] else []

/-- The variables of `collect`: the table, `mem_freed`, the releases made so far
and the number of scans of the table started so far. -/
structure CollectState where
  ref_container_ : List ptr_details
  mem_freed : Bool
  released : List FreeEvent
  scans : Nat
deriving DecidableEq, Repr

/-- The `do ... while` loop of `collect`, with a bound on the number of scans:
`none` when the bound is reached before a scan ends at `end()`. -/
def collectLoop : Nat → CollectState → Option CollectState
  | 0, _ => none
  | fuel + 1, st =>
    match scanUnreferenced st.ref_container_ with
    | none => some ⟨st.ref_container_, st.mem_freed, st.released, st.scans + 1⟩
    | some p =>
      collectLoop fuel
        ⟨list_remove st.ref_container_ p, true, st.released ++ releaseOf p, st.scans + 1⟩

/-- The function `pointer::collect` on the table `t`. -/
def collect (t : List ptr_details) : Option CollectState :=
  collectLoop (t.length + 1) ⟨t, false, [], 0⟩

/-- The constructor `pointer::pointer(T* t)`: the new table and the constructed handle. -/
def pointer.ctor (Size : Int) (t : List ptr_details) (a : Nat) :
    List ptr_details × pointer :=
  let t1 := match find_ptr_info t a with
    | some p => modifyAt incRef t p
    | none => ptr_details.ctor a (toUnsigned Size) :: t
  (t1, ⟨a, decide (toUnsigned Size > 0), toUnsigned Size⟩)

/-- The copy constructor `pointer::pointer(const pointer& ob)`. -/
def pointer.copy (t : List ptr_details) (ob : pointer) :
    Option (List ptr_details × pointer) :=
  match find_ptr_info t ob.addr_ with
  | none => none
  | some p =>
    some (modifyAt incRef t p, ⟨ob.addr_, decide (ob.array_size_ > 0), ob.array_size_⟩)

/-- The destructor `pointer::~pointer` of the handle `h`. -/
def pointer.dtor (t : List ptr_details) (h : pointer) : Option CollectState :=
  match find_ptr_info t h.addr_ with
  | none => none
  | some p => collect (modifyAt decRefIfPositive t p)

/-- The assignment `pointer::operator=(T* t)` on the handle `h`. -/
def pointer.assignRaw (Size : Int) (t : List ptr_details) (h : pointer) (a : Nat) :
    Option (List ptr_details × pointer) :=
  match find_ptr_info t h.addr_ with
  | none => none
  | some p =>
    let t1 := modifyAt decRef t p
    let t2 := match find_ptr_info t1 a with
      | some q => modifyAt incRef t1 q
      | none => ptr_details.ctor a (toUnsigned Size) :: t1
    some (t2, ⟨a, h.is_array_, h.array_size_⟩)

/-- The assignment `pointer::operator=(pointer& rv)` on the handle `h`. -/
def pointer.assign (t : List ptr_details) (h rv : pointer) :
    Option (List ptr_details × pointer) :=
  match find_ptr_info t h.addr_ with
  | none => none
  | some p =>
    let t1 := modifyAt decRef t p
    match find_ptr_info t1 rv.addr_ with
    | none => none
    | some q => some (modifyAt incRef t1 q, ⟨rv.addr_, h.is_array_, h.array_size_⟩)

/-- The function `pointer::shutdown`. -/
def shutdown (t : List ptr_details) : Option CollectState :=
  if t.length = 0 then some ⟨t, false, [], 0⟩ else collect (t.map zeroRef)

/-- The table of one `pointer<T, Size>` class together with the handles built
so far: slot `i` holds the `i`-th handle constructed, `none` once destroyed. -/
structure GcState where
  ref_container_ : List ptr_details
  handles : List (Option pointer)
deriving DecidableEq, Repr

/-- The state of a program that has not yet built a handle. -/
def GcState.init : GcState := ⟨[], []⟩

/-- The live handle in slot `i`, if any. -/
def liveAt (hs : List (Option pointer)) (i : Nat) : Option pointer :=
  match hs[i]? with
  | some o => o
  | none => none

/-- The operations a client may perform on the handles of one class. -/
inductive Op where
  | construct (a : Nat)
  | copy (i : Nat)
  | assignRaw (i : Nat) (a : Nat)
  | assign (i j : Nat)
  | destruct (i : Nat)
  | collect
  | shutdown
deriving DecidableEq, Repr

/-- One operation; `none` when it is applied to a slot that holds no live handle
or when the code dereferences `end()`. -/
def step (Size : Int) (s : GcState) : Op → Option GcState
  | .construct a =>
    some ⟨(pointer.ctor Size s.ref_container_ a).1,
      s.handles ++ [some (pointer.ctor Size s.ref_container_ a).2]⟩
  | .copy i =>
    match liveAt s.handles i with
    | none => none
    | some ob =>
      match pointer.copy s.ref_container_ ob with
      | none => none
      | some r => some ⟨r.1, s.handles ++ [some r.2]⟩
  | .assignRaw i a =>
    match liveAt s.handles i with
    | none => none
    | some h =>
      match pointer.assignRaw Size s.ref_container_ h a with
      | none => none
      | some r => some ⟨r.1, s.handles.set i (some r.2)⟩
  | .assign i j =>
    match liveAt s.handles i, liveAt s.handles j with
    | some h, some rv =>
      match pointer.assign s.ref_container_ h rv with
      | none => none
      | some r => some ⟨r.1, s.handles.set i (some r.2)⟩
    | _, _ => none
  | .destruct i =>
    match liveAt s.handles i with
    | none => none
    | some h =>
      match pointer.dtor s.ref_container_ h with
      | none => none
      | some st => some ⟨st.ref_container_, s.handles.set i none⟩
  | .collect =>
    match collect s.ref_container_ with
    | none => none
    | some st => some ⟨st.ref_container_, s.handles⟩
  | .shutdown =>
    match shutdown s.ref_container_ with
    | none => none
    | some st => some ⟨st.ref_container_, s.handles⟩

/-- A sequence of operations, from left to right. -/
def run (Size : Int) : GcState → List Op → Option GcState
  | s, [] => some s
  | s, op :: ops =>
    match step Size s op with
    | none => none
    | some s1 => run Size s1 ops

/-- The slot holds a live handle whose stored address is `a`. -/
def pointsTo (a : Nat) : Option pointer → Bool
  | some h => decide (h.addr_ = a)
  | none => false

/-- Number of live handles whose stored address is `a`. -/
def liveCount (hs : List (Option pointer)) (a : Nat) : Nat :=
  hs.countP (pointsTo a)

/-- The five operations on handles: construction, copy, the two assignments and
destruction. -/
def Op.isHandleOp : Op → Bool
  | .collect => false
  | .shutdown => false
  | _ => true

/-- The table `t` accounts for the reference counts `c`: it has at most one
record per address, every record's refcount is the count of its address, and
every address with a non-zero count has a record. -/
def Accounts (t : List ptr_details) (c : Nat → Nat) : Prop :=
  (t.map (·.mem_ptr)).Nodup ∧
  (∀ r ∈ t, r.refcount = c r.mem_ptr) ∧
  (∀ a, c a ≠ 0 → ∃ r ∈ t, r.mem_ptr = a)

/-- No address is held by `2 ^ 32` live handles or more: every count of live
handles is a value of the type `unsigned`. -/
def countsFit (hs : List (Option pointer)) : Bool :=
  hs.all (fun o =>
    match o with
    | some h => decide (liveCount hs h.addr_ < UINT_MOD)
    | none => true)

/-- The counts fit in every state the sequence of operations goes through. -/
def runFits (Size : Int) : GcState → List Op → Bool
  | s, [] => countsFit s.handles
  | s, op :: ops =>
    countsFit s.handles &&
      (match step Size s op with
       | none => true
       | some s1 => runFits Size s1 ops)

/-- The operation names only slots that hold a live handle. -/
def Op.onLive (hs : List (Option pointer)) : Op → Bool
  | .construct _ => true
  | .copy i => (liveAt hs i).isSome
  | .assignRaw i _ => (liveAt hs i).isSome
  | .assign i j => (liveAt hs i).isSome && (liveAt hs j).isSome
  | .destruct i => (liveAt hs i).isSome
  | .collect => true
  | .shutdown => true

/-- The accounting invariant of a state: the table accounts for the numbers of
live handles per address. -/
def StateInv (s : GcState) : Prop :=
  Accounts s.ref_container_ (liveCount s.handles)

/-- The destructor run `k` times, on `k` handles that store the address of `h`. -/
def dtorTimes : Nat → List ptr_details → pointer → Option (List ptr_details)
  | 0, t, _ => some t
  | k + 1, t, h =>
    match pointer.dtor t h with
    | none => none
    | some st => dtorTimes k st.ref_container_ h

/-- The flag of a handle is what the constructors compute from its length. -/
def pointer.WellFormed (h : pointer) : Prop :=
  h.is_array_ = decide (h.array_size_ > 0)

/-- Some record of `t` with refcount zero has address `a`. -/
def deadAddr (t : List ptr_details) (a : Nat) : Bool :=
  t.any (fun z => decide (z.refcount = 0 ∧ z.mem_ptr = a))

/-- What one run of the loop of `collect` on the table `t` may log: no address
twice, exactly the non-null addresses of the refcount-zero records of `t`, each
through the path given by the `is_array` flag of such a record. -/
def LogSpec (t : List ptr_details) (l : List FreeEvent) : Prop :=
  (l.map (·.addr)).Nodup ∧
  (∀ a, a ∈ l.map (·.addr) ↔ a ≠ 0 ∧ deadAddr t a = true) ∧
  (∀ e ∈ l, ∃ r ∈ t, r.refcount = 0 ∧ r.mem_ptr = e.addr ∧ r.is_array = e.viaArray)

/-- The constructor `pointer::pointer()`: it builds a temporary handle over the
null address, `pointer(NULL)`, which is destroyed at the end of the statement;
the result is the outcome of that destructor and the constructed handle. -/
def pointer.default_ctor (Size : Int) (t : List ptr_details) :
    Option (CollectState × pointer) :=
  match pointer.dtor (pointer.ctor Size t 0).1 (pointer.ctor Size t 0).2 with
  | none => none
  | some st => some (st, ⟨0, false, 0⟩)

/-- A sweep in one pass, as the specification words it: keep the records whose
refcount is greater than zero, in their order. -/
def singlePassFilter (t : List ptr_details) : List ptr_details :=
  t.filter (fun r => decide (r.refcount > 0))

/-- Conversion of an integer to `int` (32 bits, two's complement). -/
def toInt32 (n : Int) : Int :=
  if n % 4294967296 < 2147483648 then n % 4294967296 else n % 4294967296 - 4294967296

/-- The exception class `out_of_range_exc` of `gc_iterator.h`. -/
inductive Exc where
  | out_of_range_exc
deriving DecidableEq, Repr

/-- The data members of an `iter<T>` object.  A `T*` is the position of an
element, counted in elements, the null pointer being 0. -/
structure iter where
  ptr_ : Int
  end_ : Int
  begin_ : Int
  length_ : Nat
deriving DecidableEq, Repr

/-- The constructor `iter::iter()`. -/
def iter.default_ctor : iter := ⟨0, 0, 0, 0⟩

/-- The constructor `iter::iter(T* p, T* first, T* last)`. -/
def iter.ctor (p first last : Int) : iter :=
  ⟨p, last, first, toUnsigned (last - first)⟩

/-- The function `iter::size`. -/
def iter.size (c : iter) : Nat := c.length_

/-- The operator `iter::operator*`: the position of the element referred to, or
the exception thrown, and the cursor afterwards. -/
def iter.deref (c : iter) : Except Exc Int × iter :=
  if c.ptr_ ≥ c.end_ ∨ c.ptr_ < c.begin_ then (.error .out_of_range_exc, c)
  else (.ok c.ptr_, c)

/-- The operator `iter::operator->`: the address returned, or the exception
thrown, and the cursor afterwards. -/
def iter.arrow (c : iter) : Except Exc Int × iter :=
  if c.ptr_ ≥ c.end_ ∨ c.ptr_ < c.begin_ then (.error .out_of_range_exc, c)
  else (.ok c.ptr_, c)

/-- The operator `iter::operator[](int i)`: the position of the element
`ptr_[i]`, or the exception thrown, and the cursor afterwards. -/
def iter.index (c : iter) (i : Int) : Except Exc Int × iter :=
  if i < 0 ∨ i ≥ c.end_ - c.begin_ then (.error .out_of_range_exc, c)
  else (.ok (c.ptr_ + i), c)

/-- The operator `iter::operator+(int n)`: the cursor returned and the cursor
afterwards (the operator moves the cursor itself). -/
def iter.add (c : iter) (n : Int) : iter × iter :=
  (⟨c.ptr_ + n, c.end_, c.begin_, c.length_⟩, ⟨c.ptr_ + n, c.end_, c.begin_, c.length_⟩)

/-- The operator `iter::operator-(iter<T>& itr2)`, whose result is an `int`. -/
def iter.sub (c itr2 : iter) : Int := toInt32 (c.ptr_ - itr2.ptr_)

/-- The local variable `size` of `pointer::begin` and `pointer::end`, an `int`. -/
def pointer.size (h : pointer) : Int :=
  if h.is_array_ then toInt32 h.array_size_ else 1

/-- The function `pointer::begin`. -/
def pointer.begin (h : pointer) : iter :=
  iter.ctor h.addr_ h.addr_ (h.addr_ + h.size)

/-- The function `pointer::end`. -/
def pointer.end_ (h : pointer) : iter :=
  iter.ctor (h.addr_ + h.size) h.addr_ (h.addr_ + h.size)

/-- The number of elements a handle spans: its cached length when its cached
flag says array, 1 otherwise. -/
def pointer.elements (h : pointer) : Nat :=
  if h.is_array_ then h.array_size_ else 1

/-! ## Lookup and writes through an iterator -/

theorem find_ptr_info_none (t : List ptr_details) (a : Nat) :
    find_ptr_info t a = none ↔ ∀ r ∈ t, r.mem_ptr ≠ a := by
  induction t with
  | nil => simp [find_ptr_info]
  | cons x xs ih =>
    by_cases hx : x.mem_ptr = a
    · simp [find_ptr_info, hx]
    · simp [find_ptr_info, hx, ih]

theorem find_ptr_info_some {t : List ptr_details} {a p : Nat}
    (h : find_ptr_info t a = some p) :
    ∃ r, t[p]? = some r ∧ r.mem_ptr = a ∧ r ∈ t := by
  induction t generalizing p with
  | nil => simp [find_ptr_info] at h
  | cons x xs ih =>
    by_cases hx : x.mem_ptr = a
    · simp [find_ptr_info, hx] at h
      subst h
      exact ⟨x, by simp, hx, by simp⟩
    · simp [find_ptr_info, hx] at h
      rcases h with ⟨q, hq, rfl⟩
      rcases ih hq with ⟨r, hr, hra, hmem⟩
      exact ⟨r, by simpa using hr, hra, List.mem_cons_of_mem _ hmem⟩

theorem find_ptr_info_isSome {t : List ptr_details} {r : ptr_details} (h : r ∈ t) :
    ∃ p, find_ptr_info t r.mem_ptr = some p := by
  cases hf : find_ptr_info t r.mem_ptr with
  | some p => exact ⟨p, rfl⟩
  | none => exact absurd rfl ((find_ptr_info_none t _).mp hf r h)

theorem length_modifyAt (f : ptr_details → ptr_details) (t : List ptr_details) (p : Nat) :
    (modifyAt f t p).length = t.length := by
  induction t generalizing p with
  | nil => rfl
  | cons x xs ih =>
    cases p with
    | zero => rfl
    | succ p => simp [modifyAt, ih]

theorem map_mem_ptr_modifyAt {f : ptr_details → ptr_details}
    (hf : ∀ r, (f r).mem_ptr = r.mem_ptr) (t : List ptr_details) (p : Nat) :
    (modifyAt f t p).map (·.mem_ptr) = t.map (·.mem_ptr) := by
  induction t generalizing p with
  | nil => rfl
  | cons x xs ih =>
    cases p with
    | zero => simp [modifyAt, hf]
    | succ p => simp [modifyAt, ih]

theorem find_ptr_info_modifyAt {f : ptr_details → ptr_details}
    (hf : ∀ r, (f r).mem_ptr = r.mem_ptr) (t : List ptr_details) (p a : Nat) :
    find_ptr_info (modifyAt f t p) a = find_ptr_info t a := by
  induction t generalizing p with
  | nil => rfl
  | cons x xs ih =>
    cases p with
    | zero => simp [modifyAt, find_ptr_info, hf]
    | succ p => simp [modifyAt, find_ptr_info, ih]

theorem getElem?_modifyAt_self (f : ptr_details → ptr_details) (t : List ptr_details)
    (p : Nat) : (modifyAt f t p)[p]? = (t[p]?).map f := by
  induction t generalizing p with
  | nil => simp [modifyAt]
  | cons x xs ih =>
    cases p with
    | zero => simp [modifyAt]
    | succ p => simp [modifyAt, ih]

theorem getElem?_modifyAt_ne (f : ptr_details → ptr_details) (t : List ptr_details)
    {p q : Nat} (h : q ≠ p) : (modifyAt f t p)[q]? = t[q]? := by
  induction t generalizing p q with
  | nil => simp [modifyAt]
  | cons x xs ih =>
    cases p with
    | zero =>
      cases q with
      | zero => exact absurd rfl h
      | succ q => simp [modifyAt]
    | succ p =>
      cases q with
      | zero => simp [modifyAt]
      | succ q =>
        have : q ≠ p := fun hqp => h (by rw [hqp])
        simp [modifyAt, ih this]

theorem mem_modifyAt {f : ptr_details → ptr_details} {t : List ptr_details} {p : Nat}
    {x : ptr_details} (h : x ∈ modifyAt f t p) :
    x ∈ t ∨ ∃ r, t[p]? = some r ∧ x = f r := by
  induction t generalizing p with
  | nil => simp [modifyAt] at h
  | cons y ys ih =>
    cases p with
    | zero =>
      simp only [modifyAt, List.mem_cons] at h
      rcases h with rfl | h
      · exact Or.inr ⟨y, by simp, rfl⟩
      · exact Or.inl (List.mem_cons_of_mem _ h)
    | succ p =>
      simp only [modifyAt, List.mem_cons] at h
      rcases h with rfl | h
      · exact Or.inl (List.mem_cons_self _ _)
      · rcases ih h with h1 | ⟨r, hr, hx⟩
        · exact Or.inl (List.mem_cons_of_mem _ h1)
        · exact Or.inr ⟨r, by simpa using hr, hx⟩

theorem recordOf_modifyAt_same {f : ptr_details → ptr_details}
    (hf : ∀ r, (f r).mem_ptr = r.mem_ptr) {t : List ptr_details} {a p : Nat}
    (h : find_ptr_info t a = some p) :
    recordOf (modifyAt f t p) a = (recordOf t a).map f := by
  simp only [recordOf, find_ptr_info_modifyAt hf, h, getElem?_modifyAt_self]

theorem recordOf_modifyAt_other {f : ptr_details → ptr_details}
    (hf : ∀ r, (f r).mem_ptr = r.mem_ptr) {t : List ptr_details} {a b p : Nat}
    (h : find_ptr_info t a = some p) (hab : b ≠ a) :
    recordOf (modifyAt f t p) b = recordOf t b := by
  simp only [recordOf, find_ptr_info_modifyAt hf]
  cases hb : find_ptr_info t b with
  | none => rfl
  | some q =>
    have hqp : q ≠ p := by
      rintro rfl
      rcases find_ptr_info_some h with ⟨r, hr, hra, _⟩
      rcases find_ptr_info_some hb with ⟨r2, hr2, hrb, _⟩
      rw [hr] at hr2
      cases hr2
      exact hab (hrb.symm.trans hra)
    simp only [getElem?_modifyAt_ne f t hqp]

theorem recordOf_isSome_iff (t : List ptr_details) (a : Nat) :
    (∃ r, recordOf t a = some r) ↔ ∃ p, find_ptr_info t a = some p := by
  unfold recordOf
  constructor
  · rintro ⟨r, hr⟩
    cases hf : find_ptr_info t a with
    | none => rw [hf] at hr; cases hr
    | some p => exact ⟨p, rfl⟩
  · rintro ⟨p, hp⟩
    rcases find_ptr_info_some hp with ⟨r, hr, _, _⟩
    exact ⟨r, by rw [hp]; exact hr⟩

theorem recordOf_cons_ne {x : ptr_details} {a : Nat} (t : List ptr_details)
    (h : x.mem_ptr ≠ a) : recordOf (x :: t) a = recordOf t a := by
  unfold recordOf
  simp only [find_ptr_info, h, if_false]
  cases find_ptr_info t a with
  | none => rfl
  | some p => simp

theorem recordOf_cons_eq {x : ptr_details} {a : Nat} (t : List ptr_details)
    (h : x.mem_ptr = a) : recordOf (x :: t) a = some x := by
  unfold recordOf
  simp [find_ptr_info, h]

theorem incRef_mem_ptr (r : ptr_details) : (incRef r).mem_ptr = r.mem_ptr := by
  unfold incRef
  rfl

theorem decRef_mem_ptr (r : ptr_details) : (decRef r).mem_ptr = r.mem_ptr := by
  unfold decRef
  rfl

theorem decRefIfPositive_mem_ptr (r : ptr_details) :
    (decRefIfPositive r).mem_ptr = r.mem_ptr := by
  unfold decRefIfPositive
  split
  · exact decRef_mem_ptr r
  · rfl

/-! ## Arithmetic of `unsigned` -/

theorem incr_of_lt {n : Nat} (h : n + 1 < UINT_MOD) : incr n = n + 1 := by
  unfold incr
  exact Nat.mod_eq_of_lt h

theorem incr_max : incr 4294967295 = 0 := by
  decide

theorem decr_of_pos {n : Nat} (h0 : 1 ≤ n) (h : n < UINT_MOD) : decr n = n - 1 := by
  unfold decr UINT_MOD at *
  omega

theorem decr_zero : decr 0 = 4294967295 := by
  decide

theorem incr_decr {n : Nat} (h : n < UINT_MOD) : incr (decr n) = n := by
  unfold incr decr UINT_MOD at *
  omega

theorem toUnsigned_of_nonneg {n : Int} (h0 : 0 ≤ n) (h : n < 2147483648) :
    (toUnsigned n : Int) = n := by
  unfold toUnsigned
  omega

theorem toUnsigned_ne_zero_iff {n : Int} (h0 : -2147483648 ≤ n) (h : n < 2147483648) :
    toUnsigned n ≠ 0 ↔ n ≠ 0 := by
  unfold toUnsigned
  omega

theorem ptr_details_ctor_eq (m_ptr size : Nat) :
    ptr_details.ctor m_ptr size = ⟨1, m_ptr, decide (size ≠ 0), size⟩ := by
  unfold ptr_details.ctor
  by_cases h : size = 0
  · simp [h]
  · simp [h]

/-! ## The sweep -/

theorem deadAddr_iff (t : List ptr_details) (a : Nat) :
    deadAddr t a = true ↔ ∃ z ∈ t, z.refcount = 0 ∧ z.mem_ptr = a := by
  simp [deadAddr, List.any_eq_true]

theorem scanUnreferenced_none (t : List ptr_details) :
    scanUnreferenced t = none ↔ ∀ r ∈ t, r.refcount ≠ 0 := by
  simp [scanUnreferenced, List.find?_eq_none]

theorem scanUnreferenced_some {t : List ptr_details} {p : ptr_details}
    (h : scanUnreferenced t = some p) : p ∈ t ∧ p.refcount = 0 := by
  unfold scanUnreferenced at h
  refine ⟨List.mem_of_find?_eq_some h, ?_⟩
  have := List.find?_some h
  simpa using this

theorem mem_list_remove (t : List ptr_details) (p r : ptr_details) :
    r ∈ list_remove t p ↔ r ∈ t ∧ r.mem_ptr ≠ p.mem_ptr := by
  simp [list_remove, List.mem_filter]

theorem list_remove_length_lt {t : List ptr_details} {p : ptr_details} (h : p ∈ t) :
    (list_remove t p).length < t.length := by
  unfold list_remove
  induction t with
  | nil => cases h
  | cons x xs ih =>
    rcases List.mem_cons.mp h with rfl | hx
    · have := List.length_filter_le (fun r => r.mem_ptr != p.mem_ptr) xs
      simp [List.filter_cons]
      omega
    · have := ih hx
      by_cases hxp : x.mem_ptr = p.mem_ptr
      · have := List.length_filter_le (fun r => r.mem_ptr != p.mem_ptr) xs
        simp [List.filter_cons, hxp]
        omega
      · simp [List.filter_cons, hxp]
        omega

theorem deadAddr_list_remove {t : List ptr_details} {p : ptr_details}
    (hp : p ∈ t) (h0 : p.refcount = 0) (a : Nat) :
    deadAddr t a = true ↔ a = p.mem_ptr ∨ deadAddr (list_remove t p) a = true := by
  rw [deadAddr_iff, deadAddr_iff]
  constructor
  · rintro ⟨z, hz, hz0, rfl⟩
    by_cases hzp : z.mem_ptr = p.mem_ptr
    · exact Or.inl hzp
    · exact Or.inr ⟨z, (mem_list_remove t p z).mpr ⟨hz, hzp⟩, hz0, rfl⟩
  · rintro (rfl | ⟨z, hz, hz0, rfl⟩)
    · exact ⟨p, hp, h0, rfl⟩
    · exact ⟨z, ((mem_list_remove t p z).mp hz).1, hz0, rfl⟩

theorem deadAddr_list_remove_ne {t : List ptr_details} {p : ptr_details} {a : Nat}
    (h : deadAddr (list_remove t p) a = true) : a ≠ p.mem_ptr := by
  rw [deadAddr_iff] at h
  rcases h with ⟨z, hz, _, rfl⟩
  exact ((mem_list_remove t p z).mp hz).2

theorem filter_live_list_remove {t : List ptr_details} {p : ptr_details}
    (hp : p ∈ t) (h0 : p.refcount = 0) :
    (list_remove t p).filter (fun r => !deadAddr (list_remove t p) r.mem_ptr)
      = t.filter (fun r => !deadAddr t r.mem_ptr) := by
  unfold list_remove
  rw [List.filter_filter]
  apply List.filter_congr
  intro r _
  have key := deadAddr_list_remove hp h0 r.mem_ptr
  unfold list_remove at key
  by_cases hr : r.mem_ptr = p.mem_ptr
  · have hd : deadAddr t r.mem_ptr = true := key.mpr (Or.inl hr)
    rw [hd]
    simp [hr]
  · cases hd : deadAddr (List.filter (fun r => r.mem_ptr != p.mem_ptr) t) r.mem_ptr
    · have : deadAddr t r.mem_ptr = false := by
        cases hd2 : deadAddr t r.mem_ptr
        · rfl
        · rcases key.mp hd2 with h | h
          · exact absurd h hr
          · rw [hd] at h; cases h
      simp [this, hr]
    · have : deadAddr t r.mem_ptr = true := key.mpr (Or.inr hd)
      simp [this]

theorem filter_live_of_no_dead {t : List ptr_details} (h : ∀ r ∈ t, r.refcount ≠ 0) :
    t.filter (fun r => !deadAddr t r.mem_ptr) = t := by
  apply List.filter_eq_self.mpr
  intro r _
  cases hd : deadAddr t r.mem_ptr
  · rfl
  · rcases (deadAddr_iff t r.mem_ptr).mp hd with ⟨z, hz, hz0, _⟩
    exact absurd hz0 (h z hz)

theorem LogSpec_nil {t : List ptr_details} (h : ∀ r ∈ t, r.refcount ≠ 0) : LogSpec t [] := by
  refine ⟨by simp, ?_, by simp⟩
  intro a
  simp only [List.map_nil, List.not_mem_nil, false_iff, not_and]
  intro _ hd
  rcases (deadAddr_iff t a).mp hd with ⟨z, hz, hz0, _⟩
  exact h z hz hz0

theorem LogSpec_step {t : List ptr_details} {p : ptr_details} {l : List FreeEvent}
    (hp : p ∈ t) (h0 : p.refcount = 0) (hl : LogSpec (list_remove t p) l) :
    LogSpec t (releaseOf p ++ l) := by
  obtain ⟨hnd, hmem, hflag⟩ := hl
  have hne : ∀ a, a ∈ l.map (·.addr) → a ≠ p.mem_ptr := fun a ha =>
    deadAddr_list_remove_ne ((hmem a).mp ha).2
  refine ⟨?_, ?_, ?_⟩
  · unfold releaseOf
    split
    · simp only [List.singleton_append, List.map_cons, List.nodup_cons]
      exact ⟨fun hin => hne _ hin rfl, hnd⟩
    · simpa using hnd
  · intro a
    rw [deadAddr_list_remove hp h0 a, List.map_append, List.mem_append, hmem a]
    unfold releaseOf
    split
    · rename_i hnz
      simp only [List.map_cons, List.map_nil, List.mem_singleton]
      constructor
      · rintro (rfl | ⟨ha, hd⟩)
        · exact ⟨hnz, Or.inl rfl⟩
        · exact ⟨ha, Or.inr hd⟩
      · rintro ⟨ha, rfl | hd⟩
        · exact Or.inl rfl
        · exact Or.inr ⟨ha, hd⟩
    · rename_i hz
      simp only [List.map_nil, List.not_mem_nil, false_or]
      constructor
      · rintro ⟨ha, hd⟩
        exact ⟨ha, Or.inr hd⟩
      · rintro ⟨ha, rfl | hd⟩
        · exact absurd ha hz
        · exact ⟨ha, hd⟩
  · intro e he
    rcases List.mem_append.mp he with he | he
    · unfold releaseOf at he
      split at he
      · rw [List.mem_singleton] at he
        subst he
        exact ⟨p, hp, h0, rfl, rfl⟩
      · cases he
    · rcases hflag e he with ⟨r, hr, hr0, ha, hf⟩
      exact ⟨r, ((mem_list_remove t p r).mp hr).1, hr0, ha, hf⟩

/-- The loop of `collect` ends whenever the bound exceeds the number of records:
the table keeps the records whose address is that of no refcount-zero record,
`mem_freed` is raised when there was a refcount-zero record, the log grows by a
list meeting `LogSpec`, and each scan but the last removes a record. -/
theorem collectLoop_spec : ∀ (fuel : Nat) (st : CollectState),
    st.ref_container_.length < fuel →
    ∃ l n, collectLoop fuel st = some
        ⟨st.ref_container_.filter (fun r => !deadAddr st.ref_container_ r.mem_ptr),
          st.mem_freed || st.ref_container_.any (fun r => decide (r.refcount = 0)),
          st.released ++ l, st.scans + n + 1⟩ ∧
      LogSpec st.ref_container_ l ∧
      n + (st.ref_container_.filter
            (fun r => !deadAddr st.ref_container_ r.mem_ptr)).length
        ≤ st.ref_container_.length := by
  intro fuel
  induction fuel with
  | zero => intro st h; omega
  | succ fuel ih =>
    intro st hlen
    cases hscan : scanUnreferenced st.ref_container_ with
    | none =>
      have hall := (scanUnreferenced_none _).mp hscan
      refine ⟨[], 0, ?_, LogSpec_nil hall, ?_⟩
      · have hany : st.ref_container_.any (fun r => decide (r.refcount = 0)) = false := by
          rw [List.any_eq_false]
          intro r hr
          simpa using hall r hr
        simp [collectLoop, hscan, filter_live_of_no_dead hall, hany]
      · rw [filter_live_of_no_dead hall]; omega
    | some p =>
      obtain ⟨hp, h0⟩ := scanUnreferenced_some hscan
      have hlt := list_remove_length_lt hp
      obtain ⟨l, n, hrun, hspec, hn⟩ := ih
        ⟨list_remove st.ref_container_ p, true, st.released ++ releaseOf p, st.scans + 1⟩
        (by simp only; omega)
      refine ⟨releaseOf p ++ l, n + 1, ?_, LogSpec_step hp h0 hspec, ?_⟩
      · have hany : st.ref_container_.any (fun r => decide (r.refcount = 0)) = true := by
          rw [List.any_eq_true]
          exact ⟨p, hp, by simpa using h0⟩
        simp only [collectLoop, hscan, hrun, filter_live_list_remove hp h0, hany,
          Bool.or_true, Bool.true_or, List.append_assoc]
        congr 2
        omega
      · simp only [filter_live_list_remove hp h0] at hn
        omega

/-- The function `collect` returns, with the outcome described in `collectLoop_spec`. -/
theorem collect_spec (t : List ptr_details) :
    ∃ l n, collect t = some
        ⟨t.filter (fun r => !deadAddr t r.mem_ptr),
          t.any (fun r => decide (r.refcount = 0)), l, n + 1⟩ ∧
      LogSpec t l ∧
      n + (t.filter (fun r => !deadAddr t r.mem_ptr)).length ≤ t.length := by
  obtain ⟨l, n, h, hs, hn⟩ := collectLoop_spec (t.length + 1) ⟨t, false, [], 0⟩
    (by simp)
  refine ⟨l, n, ?_, hs, hn⟩
  simpa [collect] using h

theorem mem_filter_live (t : List ptr_details) (r : ptr_details) :
    r ∈ t.filter (fun r => !deadAddr t r.mem_ptr) ↔
      r ∈ t ∧ ∀ z ∈ t, z.refcount = 0 → z.mem_ptr ≠ r.mem_ptr := by
  rw [List.mem_filter]
  constructor
  · rintro ⟨hr, hd⟩
    refine ⟨hr, fun z hz hz0 hza => ?_⟩
    have : deadAddr t r.mem_ptr = true := (deadAddr_iff t r.mem_ptr).mpr ⟨z, hz, hz0, hza⟩
    rw [this] at hd
    cases hd
  · rintro ⟨hr, hz⟩
    refine ⟨hr, ?_⟩
    cases hd : deadAddr t r.mem_ptr
    · rfl
    · rcases (deadAddr_iff t r.mem_ptr).mp hd with ⟨z, hz1, hz0, hza⟩
      exact absurd hza (hz z hz1 hz0)

/-- A record of `t` is absent from the swept table exactly when its address is
that of a refcount-zero record of `t`. -/
theorem removed_iff_dead (t : List ptr_details) (r : ptr_details) (hr : r ∈ t) :
    r ∉ t.filter (fun r => !deadAddr t r.mem_ptr) ↔ deadAddr t r.mem_ptr = true := by
  rw [mem_filter_live, deadAddr_iff]
  constructor
  · intro h
    by_contra hcon
    exact h ⟨hr, fun z hz hz0 hza => hcon ⟨z, hz, hz0, hza⟩⟩
  · rintro ⟨z, hz, hz0, hza⟩ ⟨_, h⟩
    exact h z hz hz0 hza

/-- C3: for every table, `collect` returns, and the table it leaves contains no
record whose refcount is zero. -/
theorem collect_leaves_no_zero_refcount (t : List ptr_details) :
    ∃ st, collect t = some st ∧ ∀ r ∈ st.ref_container_, r.refcount ≠ 0 := by
  obtain ⟨l, n, h, _, _⟩ := collect_spec t
  refine ⟨_, h, ?_⟩
  intro r hr h0
  have hm := (mem_filter_live t r).mp hr
  exact hm.2 r hm.1 h0 rfl

/-- C4: for every table, `collect` returns with a release log in which no address
occurs twice; the addresses released are exactly the non-null addresses of the
records removed from the table; every release is made for a removed record of
refcount zero and goes through `delete[]` exactly when that record has
`is_array` set, through `delete` otherwise; and every removed record with a
non-null address finds its address released through the path of its own flag,
provided no refcount-zero record of the same address carries another flag (as
when the address has one record only). -/
theorem collect_release_discipline (t : List ptr_details) :
    ∃ st, collect t = some st ∧
      (st.released.map (·.addr)).Nodup ∧
      (∀ a, a ∈ st.released.map (·.addr) ↔
        a ≠ 0 ∧ ∃ r ∈ t, r ∉ st.ref_container_ ∧ r.mem_ptr = a) ∧
      (∀ e ∈ st.released, ∃ r ∈ t, r ∉ st.ref_container_ ∧ r.refcount = 0 ∧
        r.mem_ptr = e.addr ∧ (e.viaArray = true ↔ r.is_array = true)) ∧
      (∀ r ∈ t, r ∉ st.ref_container_ → r.mem_ptr ≠ 0 →
        (∀ z ∈ t, z.refcount = 0 → z.mem_ptr = r.mem_ptr → z.is_array = r.is_array) →
          (⟨r.mem_ptr, r.is_array⟩ : FreeEvent) ∈ st.released) := by
  obtain ⟨l, n, h, ⟨hnd, hmem, hflag⟩, _⟩ := collect_spec t
  refine ⟨_, h, hnd, ?_, ?_, ?_⟩
  · intro a
    rw [hmem a]
    constructor
    · rintro ⟨ha, hd⟩
      rcases (deadAddr_iff t a).mp hd with ⟨z, hz, hz0, hza⟩
      refine ⟨ha, z, hz, ?_, hza⟩
      exact (removed_iff_dead t z hz).mpr ((deadAddr_iff t _).mpr ⟨z, hz, hz0, rfl⟩)
    · rintro ⟨ha, r, hr, hrem, rfl⟩
      exact ⟨ha, (removed_iff_dead t r hr).mp hrem⟩
  · intro e he
    rcases hflag e he with ⟨r, hr, hr0, hra, hrf⟩
    refine ⟨r, hr, ?_, hr0, hra, by rw [hrf]⟩
    exact (removed_iff_dead t r hr).mpr ((deadAddr_iff t _).mpr ⟨r, hr, hr0, rfl⟩)
  · intro r hr hrem hnz hagree
    have hd := (removed_iff_dead t r hr).mp hrem
    have hin : r.mem_ptr ∈ l.map (·.addr) := (hmem r.mem_ptr).mpr ⟨hnz, hd⟩
    rcases List.mem_map.mp hin with ⟨e, he, hea⟩
    rcases hflag e he with ⟨z, hz, hz0, hza, hzf⟩
    have hzr : z.is_array = r.is_array := hagree z hz hz0 (by rw [hza, hea])
    have : e = ⟨r.mem_ptr, r.is_array⟩ := by
      cases e
      simp only [FreeEvent.mk.injEq]
      exact ⟨hea, by rw [← hzr]; exact hzf.symm⟩
    rw [← this]
    exact he

/-- C5: for every table, `collect` returns; its return value `mem_freed` is true
if and only if some record of the table was removed, if and only if the table
held a record of refcount zero on entry; and when it is false the table is
unchanged. -/
theorem collect_return_value (t : List ptr_details) :
    ∃ st, collect t = some st ∧
      (st.mem_freed = true ↔ ∃ r ∈ t, r ∉ st.ref_container_) ∧
      (st.mem_freed = true ↔ st.ref_container_.length < t.length) ∧
      (st.mem_freed = true ↔ ∃ r ∈ t, r.refcount = 0) ∧
      (st.mem_freed = false → st.ref_container_ = t) := by
  obtain ⟨l, n, h, _, _⟩ := collect_spec t
  have hfreed : (t.any (fun r => decide (r.refcount = 0)) = true) ↔ ∃ r ∈ t, r.refcount = 0 := by
    simp [List.any_eq_true]
  have hsame : (¬ ∃ r ∈ t, r.refcount = 0) → t.filter (fun r => !deadAddr t r.mem_ptr) = t := by
    intro hno
    exact filter_live_of_no_dead (fun r hr h0 => hno ⟨r, hr, h0⟩)
  refine ⟨_, h, ?_, ?_, hfreed, ?_⟩
  · rw [hfreed]
    constructor
    · rintro ⟨r, hr, h0⟩
      exact ⟨r, hr, (removed_iff_dead t r hr).mpr ((deadAddr_iff t _).mpr ⟨r, hr, h0, rfl⟩)⟩
    · rintro ⟨r, hr, hrem⟩
      rcases (deadAddr_iff t _).mp ((removed_iff_dead t r hr).mp hrem) with ⟨z, hz, hz0, _⟩
      exact ⟨z, hz, hz0⟩
  · rw [hfreed]
    constructor
    · rintro ⟨r, hr, h0⟩
      show (t.filter (fun r => !deadAddr t r.mem_ptr)).length < t.length
      have hrem := (removed_iff_dead t r hr).mpr ((deadAddr_iff t _).mpr ⟨r, hr, h0, rfl⟩)
      have hle := List.length_filter_le (fun r => !deadAddr t r.mem_ptr) t
      rcases Nat.lt_or_ge (t.filter (fun r => !deadAddr t r.mem_ptr)).length t.length with h1 | h1
      · exact h1
      · exfalso
        have heq : (t.filter (fun r => !deadAddr t r.mem_ptr)).length = t.length := by omega
        have hfil : t.filter (fun r => !deadAddr t r.mem_ptr) = t :=
          List.Sublist.eq_of_length (List.filter_sublist t) heq
        rw [hfil] at hrem
        exact hrem hr
    · intro hlt
      by_contra hno
      have := hsame hno
      simp only [this] at hlt
      omega
  · intro hf
    have hno : ¬ ∃ r ∈ t, r.refcount = 0 := by
      intro hex
      have := hfreed.mpr hex
      simp only at hf
      rw [this] at hf
      cases hf
    exact hsame hno

/-! ## Construction, copy and assignment -/

theorem pointer_ctor_tracked (Size : Int) {t : List ptr_details} {a p : Nat}
    (h : find_ptr_info t a = some p) :
    (pointer.ctor Size t a).1 = modifyAt incRef t p := by
  simp only [pointer.ctor, h]

theorem pointer_ctor_untracked (Size : Int) {t : List ptr_details} {a : Nat}
    (h : find_ptr_info t a = none) :
    (pointer.ctor Size t a).1 = ptr_details.ctor a (toUnsigned Size) :: t := by
  simp only [pointer.ctor, h]

/-- C8, the claim as stated fails: on a record whose refcount is `2 ^ 32 - 1` the
constructor leaves refcount `0`, not one more; and for `Size = -1` the record
created has length `4294967295`, not `Size`. -/
theorem ctor_claim_fails :
    refcountOf [⟨4294967295, 7, false, 0⟩] 7 = some 4294967295 ∧
    refcountOf (pointer.ctor 0 [⟨4294967295, 7, false, 0⟩] 7).1 7 = some 0 ∧
    (pointer.ctor (-1) [] 7).1 = [⟨1, 7, true, 4294967295⟩] ∧
    ((4294967295 : Int) ≠ -1) := by
  decide

/-- C8, amended: for every table, address `a` and `Size` in the range of `int`:
if `a` is tracked, at position `p` with record `r`, the constructor keeps the
number of records, replaces `r` by `r` with refcount `(refcount + 1) mod 2 ^ 32`
(which is `refcount + 1` when below `2 ^ 32 - 1`) and leaves every other position
unchanged; if `a` is not tracked, the new table is the old one with one record in
front, of address `a`, refcount 1, `is_array = (Size ≠ 0)` and length `Size`
converted to `unsigned` (which is `Size` when `Size ≥ 0`). -/
theorem ctor_effect (Size : Int) (t : List ptr_details) (a : Nat)
    (hlo : -2147483648 ≤ Size) (hhi : Size < 2147483648) :
    (∀ p, find_ptr_info t a = some p →
      ∃ r, t[p]? = some r ∧ r.mem_ptr = a ∧
        (pointer.ctor Size t a).1.length = t.length ∧
        (pointer.ctor Size t a).1[p]? =
          some ⟨(r.refcount + 1) % 4294967296, a, r.is_array, r.array_size⟩ ∧
        recordOf (pointer.ctor Size t a).1 a =
          some ⟨(r.refcount + 1) % 4294967296, a, r.is_array, r.array_size⟩ ∧
        (r.refcount + 1 < 4294967296 →
          refcountOf (pointer.ctor Size t a).1 a = some (r.refcount + 1)) ∧
        (∀ q, q ≠ p → (pointer.ctor Size t a).1[q]? = t[q]?) ∧
        (∀ b, b ≠ a → recordOf (pointer.ctor Size t a).1 b = recordOf t b)) ∧
    (find_ptr_info t a = none →
      (pointer.ctor Size t a).1 = ⟨1, a, decide (Size ≠ 0), toUnsigned Size⟩ :: t ∧
      (0 ≤ Size → (toUnsigned Size : Int) = Size)) := by
  constructor
  · intro p hp
    obtain ⟨r, hr, hra, _⟩ := find_ptr_info_some hp
    have hrec : recordOf (pointer.ctor Size t a).1 a =
        some ⟨(r.refcount + 1) % 4294967296, a, r.is_array, r.array_size⟩ := by
      rw [pointer_ctor_tracked Size hp, recordOf_modifyAt_same incRef_mem_ptr hp]
      simp only [recordOf, hp, hr, Option.map_some', incRef, incr, UINT_MOD, hra]
    refine ⟨r, hr, hra, ?_, ?_, hrec, ?_, ?_, ?_⟩
    · rw [pointer_ctor_tracked Size hp, length_modifyAt]
    · rw [pointer_ctor_tracked Size hp, getElem?_modifyAt_self, hr]
      simp only [Option.map_some', incRef, incr, UINT_MOD, hra]
    · intro hlt
      simp only [refcountOf, hrec, Option.map_some']
      rw [Nat.mod_eq_of_lt hlt]
    · intro q hq
      rw [pointer_ctor_tracked Size hp, getElem?_modifyAt_ne incRef t hq]
    · intro b hb
      rw [pointer_ctor_tracked Size hp, recordOf_modifyAt_other incRef_mem_ptr hp hb]
  · intro hnone
    refine ⟨?_, fun h0 => toUnsigned_of_nonneg h0 hhi⟩
    rw [pointer_ctor_untracked Size hnone, ptr_details_ctor_eq]
    have := toUnsigned_ne_zero_iff hlo hhi
    simp only [ptr_details.mk.injEq, List.cons.injEq, and_true, true_and, decide_eq_decide]
    exact this

/-- C8, the amended claim at `Size = 10`, on a table that tracks address 7 and
does not track address 9. -/
theorem ctor_effect_witness :
    (∀ p, find_ptr_info [⟨1, 7, true, 10⟩] 7 = some p →
      ∃ r, [(⟨1, 7, true, 10⟩ : ptr_details)][p]? = some r ∧ r.mem_ptr = 7 ∧
        (pointer.ctor 10 [⟨1, 7, true, 10⟩] 7).1.length = 1) ∧
    (pointer.ctor 10 [⟨1, 7, true, 10⟩] 9).1 =
      [⟨1, 9, true, 10⟩, ⟨1, 7, true, 10⟩] := by
  have h7 := (ctor_effect 10 [⟨1, 7, true, 10⟩] 7 (by decide) (by decide)).1
  have h9 := (ctor_effect 10 [⟨1, 7, true, 10⟩] 9 (by decide) (by decide)).2 (by decide)
  refine ⟨?_, ?_⟩
  · intro p hp
    obtain ⟨r, hr, hra, hlen, _⟩ := h7 p hp
    exact ⟨r, hr, hra, hlen⟩
  · rw [h9.1]
    decide

theorem liveAt_append_left (hs : List (Option pointer)) (x : Option pointer) {i : Nat}
    {h : pointer} (hl : liveAt hs i = some h) : liveAt (hs ++ [x]) i = some h := by
  unfold liveAt at *
  cases hi : hs[i]? with
  | none => rw [hi] at hl; cases hl
  | some o =>
    rw [hi] at hl
    have hlt : i < hs.length := by
      rcases List.getElem?_eq_some_iff.mp hi with ⟨hlt, _⟩
      exact hlt
    rw [List.getElem?_append_left hlt, hi]
    exact hl

/-- C7, the claim as stated fails: copying a handle whose record has refcount
`2 ^ 32 - 1` leaves that record with refcount `0`, not one more. -/
theorem copy_claim_fails :
    refcountOf [⟨4294967295, 7, false, 0⟩] 7 = some 4294967295 ∧
    (pointer.copy [⟨4294967295, 7, false, 0⟩] ⟨7, false, 0⟩).map (fun r => refcountOf r.1 7)
      = some (some 0) := by
  decide

/-- C7, amended: for every state and every live handle `h` (slot `i`, with its
`is_array_` flag equal to `array_size_ > 0`, as the constructors leave it) whose
address is tracked, at position `p` with record `r`, the copy returns; the new
handle takes a new slot and has the address, flag and length of `h`; slot `i`
still holds `h`; the number of records is unchanged; the record at `p` becomes
`r` with refcount `(refcount + 1) mod 2 ^ 32` (which is `refcount + 1` when below
`2 ^ 32 - 1`); every other position and every other address keeps its record. -/
theorem copy_effect (Size : Int) (s : GcState) (i p : Nat) (h : pointer)
    (hlive : liveAt s.handles i = some h)
    (hwf : h.WellFormed)
    (htr : find_ptr_info s.ref_container_ h.addr_ = some p) :
    ∃ r s1, s.ref_container_[p]? = some r ∧ r.mem_ptr = h.addr_ ∧
      step Size s (.copy i) = some s1 ∧
      s1.handles = s.handles ++ [some h] ∧
      liveAt s1.handles i = some h ∧
      s1.ref_container_.length = s.ref_container_.length ∧
      s1.ref_container_[p]? =
        some ⟨(r.refcount + 1) % 4294967296, h.addr_, r.is_array, r.array_size⟩ ∧
      (r.refcount + 1 < 4294967296 →
        refcountOf s1.ref_container_ h.addr_ = some (r.refcount + 1)) ∧
      (∀ q, q ≠ p → s1.ref_container_[q]? = s.ref_container_[q]?) ∧
      (∀ b, b ≠ h.addr_ → recordOf s1.ref_container_ b = recordOf s.ref_container_ b) := by
  obtain ⟨r, hr, hra, _⟩ := find_ptr_info_some htr
  have hcopy : pointer.copy s.ref_container_ h =
      some (modifyAt incRef s.ref_container_ p, h) := by
    unfold pointer.WellFormed at hwf
    simp only [pointer.copy, htr, ← hwf]
  refine ⟨r, ⟨modifyAt incRef s.ref_container_ p, s.handles ++ [some h]⟩, hr, hra, ?_, rfl,
    liveAt_append_left _ _ hlive, length_modifyAt _ _ _, ?_, ?_, ?_, ?_⟩
  · simp only [step, hlive, hcopy]
  · show (modifyAt incRef s.ref_container_ p)[p]? = _
    rw [getElem?_modifyAt_self, hr]
    simp only [Option.map_some', incRef, incr, UINT_MOD, hra]
  · intro hlt
    show refcountOf (modifyAt incRef s.ref_container_ p) h.addr_ = _
    unfold refcountOf
    rw [recordOf_modifyAt_same incRef_mem_ptr htr]
    simp only [recordOf, htr, hr, Option.map_some', incRef]
    rw [incr_of_lt hlt]
  · intro q hq
    exact getElem?_modifyAt_ne incRef _ hq
  · intro b hb
    exact recordOf_modifyAt_other incRef_mem_ptr htr hb

/-- C7, the amended claim on the state left by constructing one handle over an
array of 10 elements at address 7. -/
theorem copy_effect_witness :
    ∃ r s1, [(⟨1, 7, true, 10⟩ : ptr_details)][0]? = some r ∧
      step 10 ⟨[⟨1, 7, true, 10⟩], [some ⟨7, true, 10⟩]⟩ (.copy 0) = some s1 ∧
      s1.handles = [some ⟨7, true, 10⟩, some ⟨7, true, 10⟩] ∧
      s1.ref_container_[0]? = some ⟨2, 7, true, 10⟩ := by
  obtain ⟨r, s1, hr, _, hstep, hh, _, _, hrec, _⟩ :=
    copy_effect 10 ⟨[⟨1, 7, true, 10⟩], [some ⟨7, true, 10⟩]⟩ 0 0 ⟨7, true, 10⟩
      (by decide) rfl (by decide)
  refine ⟨r, s1, hr, hstep, hh, ?_⟩
  rw [hrec]
  simp only [List.getElem?_cons_zero, Option.some.injEq] at hr
  subst hr
  decide

theorem ptr_details_ctor_mem_ptr (a size : Nat) : (ptr_details.ctor a size).mem_ptr = a := by
  rw [ptr_details_ctor_eq]

theorem ptr_details_ctor_refcount (a size : Nat) : (ptr_details.ctor a size).refcount = 1 := by
  rw [ptr_details_ctor_eq]

theorem recordOf_eq_none_iff (t : List ptr_details) (a : Nat) :
    recordOf t a = none ↔ find_ptr_info t a = none := by
  constructor
  · intro h
    cases hf : find_ptr_info t a with
    | none => rfl
    | some p =>
      rcases (recordOf_isSome_iff t a).mpr ⟨p, hf⟩ with ⟨r, hr⟩
      rw [hr] at h
      cases h
  · intro h
    simp only [recordOf, h]

theorem refcountOf_eq_none_iff (t : List ptr_details) (a : Nat) :
    refcountOf t a = none ↔ find_ptr_info t a = none := by
  unfold refcountOf
  rw [Option.map_eq_none', recordOf_eq_none_iff]

/-- The table `operator=(T*)` leaves, by whether the new address was tracked. -/
theorem assignRaw_eq (Size : Int) {t : List ptr_details} {h : pointer} {p : Nat} (a : Nat)
    (htr : find_ptr_info t h.addr_ = some p) :
    pointer.assignRaw Size t h a = some
      ((match find_ptr_info t a with
        | some q => modifyAt incRef (modifyAt decRef t p) q
        | none => ptr_details.ctor a (toUnsigned Size) :: modifyAt decRef t p),
       ⟨a, h.is_array_, h.array_size_⟩) := by
  simp only [pointer.assignRaw, htr, find_ptr_info_modifyAt decRef_mem_ptr]

/-- C6, the claim as stated fails: assigning a handle the address it already
holds leaves the refcount at 1 (neither one less nor one more); a tracked old
address of refcount 0 ends at `2 ^ 32 - 1`; a new address of refcount
`2 ^ 32 - 1` ends at 0. -/
theorem assignRaw_claim_fails :
    (pointer.assignRaw 0 [⟨1, 5, false, 0⟩] ⟨5, false, 0⟩ 5).map (fun r => refcountOf r.1 5)
      = some (some 1) ∧
    (pointer.assignRaw 0 [⟨0, 5, false, 0⟩] ⟨5, false, 0⟩ 6).map (fun r => refcountOf r.1 5)
      = some (some 4294967295) ∧
    (pointer.assignRaw 0 [⟨1, 5, false, 0⟩, ⟨4294967295, 6, false, 0⟩] ⟨5, false, 0⟩ 6).map
      (fun r => refcountOf r.1 6) = some (some 0) := by
  decide

/-- C6, amended: for every table, every handle `h` whose address `old` is tracked
(its record being `r`) and every raw address `new`, `operator=(T*)` returns and
the handle then stores `new`.  When `new ≠ old`: the refcount of `old` becomes
`(refcount - 1) mod 2 ^ 32`, which is exactly one less when it was at least 1;
the refcount of `new`, if tracked with refcount `m`, becomes `(m + 1) mod 2 ^ 32`,
which is exactly one more when `m < 2 ^ 32 - 1`; if `new` was not tracked it now
has a record of refcount 1.  When `new = old` the refcount is unchanged. -/
theorem assignRaw_effect (Size : Int) (t : List ptr_details) (h : pointer) (new p : Nat)
    (htr : find_ptr_info t h.addr_ = some p) :
    ∃ r t1 h1, recordOf t h.addr_ = some r ∧
      pointer.assignRaw Size t h new = some (t1, h1) ∧ h1.addr_ = new ∧
      (new ≠ h.addr_ →
        refcountOf t1 h.addr_ = some ((r.refcount + 4294967295) % 4294967296) ∧
        (1 ≤ r.refcount → r.refcount < 4294967296 →
          refcountOf t1 h.addr_ = some (r.refcount - 1)) ∧
        (∀ m, refcountOf t new = some m →
          refcountOf t1 new = some ((m + 1) % 4294967296) ∧
          (m + 1 < 4294967296 → refcountOf t1 new = some (m + 1))) ∧
        (refcountOf t new = none → refcountOf t1 new = some 1)) ∧
      (new = h.addr_ → r.refcount < 4294967296 → refcountOf t1 new = some r.refcount) := by
  obtain ⟨r, hr, hra, _⟩ := find_ptr_info_some htr
  have hrec : recordOf t h.addr_ = some r := by simp only [recordOf, htr, hr]
  have hdec : decr r.refcount = (r.refcount + 4294967295) % 4294967296 := by
    unfold decr UINT_MOD
    rfl
  refine ⟨r, _, _, hrec, assignRaw_eq Size new htr, rfl, ?_, ?_⟩
  · intro hne
    have hne2 : h.addr_ ≠ new := fun e => hne e.symm
    have hold : refcountOf (match find_ptr_info t new with
        | some q => modifyAt incRef (modifyAt decRef t p) q
        | none => ptr_details.ctor new (toUnsigned Size) :: modifyAt decRef t p) h.addr_
        = some (decr r.refcount) := by
      unfold refcountOf
      cases hq : find_ptr_info t new with
      | some q =>
        have hq1 : find_ptr_info (modifyAt decRef t p) new = some q := by
          rw [find_ptr_info_modifyAt decRef_mem_ptr]; exact hq
        simp only
        rw [recordOf_modifyAt_other incRef_mem_ptr hq1 hne2,
          recordOf_modifyAt_same decRef_mem_ptr htr, hrec]
        simp only [Option.map_some', decRef]
      | none =>
        simp only
        rw [recordOf_cons_ne _ (by rw [ptr_details_ctor_mem_ptr]; exact hne),
          recordOf_modifyAt_same decRef_mem_ptr htr, hrec]
        simp only [Option.map_some', decRef]
    refine ⟨by rw [hold, hdec], ?_, ?_, ?_⟩
    · intro h1 h2
      rw [hold, decr_of_pos h1 h2]
    · intro m hm
      have hsome : refcountOf t new ≠ none := by rw [hm]; simp
      cases hq : find_ptr_info t new with
      | none => exact absurd ((refcountOf_eq_none_iff t new).mpr hq) hsome
      | some q =>
        have hq1 : find_ptr_info (modifyAt decRef t p) new = some q := by
          rw [find_ptr_info_modifyAt decRef_mem_ptr]; exact hq
        have hnew : refcountOf (modifyAt incRef (modifyAt decRef t p) q) new
            = some (incr m) := by
          unfold refcountOf at hm ⊢
          rw [recordOf_modifyAt_same incRef_mem_ptr hq1,
            recordOf_modifyAt_other decRef_mem_ptr htr hne]
          cases hrn : recordOf t new with
          | none => rw [hrn] at hm; cases hm
          | some rn =>
            rw [hrn] at hm
            simp only [Option.map_some', Option.some.injEq] at hm
            simp only [Option.map_some', incRef, hm]
        simp only
        refine ⟨by rw [hnew]; rfl, fun hlt => ?_⟩
        rw [hnew, incr_of_lt hlt]
    · intro hnone
      have hq := (refcountOf_eq_none_iff t new).mp hnone
      simp only [hq]
      unfold refcountOf
      rw [recordOf_cons_eq _ (ptr_details_ctor_mem_ptr _ _)]
      simp only [Option.map_some', ptr_details_ctor_refcount]
  · intro heq hlt
    subst heq
    simp only [htr]
    unfold refcountOf
    have hq1 : find_ptr_info (modifyAt decRef t p) h.addr_ = some p := by
      rw [find_ptr_info_modifyAt decRef_mem_ptr]; exact htr
    rw [recordOf_modifyAt_same incRef_mem_ptr hq1,
      recordOf_modifyAt_same decRef_mem_ptr htr, hrec]
    simp only [Option.map_some', incRef, decRef]
    rw [incr_decr hlt]

/-- C6, the amended claim on the table left by `p = new int(1)` when `p` is
assigned a fresh address. -/
theorem assignRaw_effect_witness :
    ∃ r t1 h1, recordOf [⟨1, 11, false, 0⟩] 11 = some r ∧
      pointer.assignRaw 0 [⟨1, 11, false, 0⟩] ⟨11, false, 0⟩ 12 = some (t1, h1) ∧
      h1.addr_ = 12 ∧ refcountOf t1 11 = some 0 ∧ refcountOf t1 12 = some 1 := by
  obtain ⟨r, t1, h1, hr, hrun, haddr, hne, _⟩ :=
    assignRaw_effect 0 [⟨1, 11, false, 0⟩] ⟨11, false, 0⟩ 12 0 (by decide)
  obtain ⟨hold, _, _, hnew⟩ := hne (by decide)
  have hr1 : r = ⟨1, 11, false, 0⟩ := by
    have : recordOf [⟨1, 11, false, 0⟩] 11 = some ⟨1, 11, false, 0⟩ := by decide
    rw [this] at hr
    exact (Option.some.inj hr).symm
  refine ⟨r, t1, h1, hr, hrun, haddr, ?_, hnew (by decide)⟩
  rw [hold, hr1]
  rfl

/-! ## Tables with one record per address -/

theorem eq_of_mem_ptr_eq {t : List ptr_details} (hnd : (t.map (·.mem_ptr)).Nodup)
    {x y : ptr_details} (hx : x ∈ t) (hy : y ∈ t) (h : x.mem_ptr = y.mem_ptr) : x = y :=
  List.inj_on_of_nodup_map hnd hx hy h

theorem mem_modifyAt_nodup {f : ptr_details → ptr_details} {t : List ptr_details}
    (hnd : (t.map (·.mem_ptr)).Nodup) {a p : Nat} (h : find_ptr_info t a = some p)
    (x : ptr_details) :
    x ∈ modifyAt f t p ↔
      (x ∈ t ∧ x.mem_ptr ≠ a) ∨ (∃ r ∈ t, r.mem_ptr = a ∧ x = f r) := by
  induction t generalizing p with
  | nil => simp [find_ptr_info] at h
  | cons y ys ih =>
    rw [List.map_cons, List.nodup_cons] at hnd
    obtain ⟨hy, hnd⟩ := hnd
    by_cases hya : y.mem_ptr = a
    · simp only [find_ptr_info, hya, if_true, Option.some.injEq] at h
      subst h
      have hys : ∀ z ∈ ys, z.mem_ptr ≠ a := by
        intro z hz hza
        apply hy
        rw [hya, ← hza]
        exact List.mem_map_of_mem _ hz
      simp only [modifyAt, List.mem_cons]
      constructor
      · rintro (rfl | hx)
        · exact Or.inr ⟨y, Or.inl rfl, hya, rfl⟩
        · exact Or.inl ⟨Or.inr hx, hys x hx⟩
      · rintro (⟨rfl | hx, hxa⟩ | ⟨r, rfl | hr, hra, rfl⟩)
        · exact absurd hya hxa
        · exact Or.inr hx
        · exact Or.inl rfl
        · exact absurd hra (hys r hr)
    · simp only [find_ptr_info, hya, if_false, Option.map_eq_some'] at h
      obtain ⟨q, hq, rfl⟩ := h
      simp only [modifyAt, List.mem_cons, ih hnd hq]
      constructor
      · rintro (rfl | ⟨hx, hxa⟩ | ⟨r, hr, hra, rfl⟩)
        · exact Or.inl ⟨Or.inl rfl, hya⟩
        · exact Or.inl ⟨Or.inr hx, hxa⟩
        · exact Or.inr ⟨r, Or.inr hr, hra, rfl⟩
      · rintro (⟨rfl | hx, hxa⟩ | ⟨r, rfl | hr, hra, rfl⟩)
        · exact Or.inl rfl
        · exact Or.inr (Or.inl ⟨hx, hxa⟩)
        · exact absurd hra hya
        · exact Or.inr (Or.inr ⟨r, hr, hra, rfl⟩)

theorem tracked_modifyAt {f : ptr_details → ptr_details}
    (hf : ∀ r, (f r).mem_ptr = r.mem_ptr) (t : List ptr_details) (p b : Nat) :
    (∃ r ∈ modifyAt f t p, r.mem_ptr = b) ↔ ∃ r ∈ t, r.mem_ptr = b := by
  have h := map_mem_ptr_modifyAt hf t p
  have e1 : (∃ r ∈ modifyAt f t p, r.mem_ptr = b) ↔ b ∈ (modifyAt f t p).map (·.mem_ptr) := by
    simp [List.mem_map]
  have e2 : (∃ r ∈ t, r.mem_ptr = b) ↔ b ∈ t.map (·.mem_ptr) := by
    simp [List.mem_map]
  rw [e1, e2, h]

/-- A write through the iterator found for `a` keeps the accounting when it sets
the refcount of that record to the new count of `a` and no other count changes. -/
theorem Accounts_modifyAt {f : ptr_details → ptr_details}
    (hf : ∀ r, (f r).mem_ptr = r.mem_ptr) {t : List ptr_details} {c c1 : Nat → Nat}
    {a p : Nat} (hacc : Accounts t c) (h : find_ptr_info t a = some p)
    (hat : ∀ r ∈ t, r.mem_ptr = a → (f r).refcount = c1 a)
    (hother : ∀ b, b ≠ a → c1 b = c b) : Accounts (modifyAt f t p) c1 := by
  obtain ⟨hnd, hcnt, hcov⟩ := hacc
  refine ⟨by rw [map_mem_ptr_modifyAt hf]; exact hnd, ?_, ?_⟩
  · intro x hx
    rcases (mem_modifyAt_nodup hnd h x).mp hx with ⟨hxt, hxa⟩ | ⟨r, hr, hra, rfl⟩
    · rw [hother _ hxa]
      exact hcnt x hxt
    · rw [hf, hra]
      exact hat r hr hra
  · intro b hb
    rw [tracked_modifyAt hf]
    by_cases hba : b = a
    · subst hba
      obtain ⟨r, _, hra, hr⟩ := find_ptr_info_some h
      exact ⟨r, hr, hra⟩
    · rw [hother b hba] at hb
      exact hcov b hb

theorem Accounts_incr {t : List ptr_details} {c c1 : Nat → Nat} {a p : Nat}
    (hacc : Accounts t c) (h : find_ptr_info t a = some p) (hfit : c a + 1 < UINT_MOD)
    (hat : c1 a = c a + 1) (hother : ∀ b, b ≠ a → c1 b = c b) :
    Accounts (modifyAt incRef t p) c1 := by
  refine Accounts_modifyAt incRef_mem_ptr hacc h ?_ hother
  intro r hr hra
  have : r.refcount = c a := by rw [← hra]; exact hacc.2.1 r hr
  unfold incRef
  simp only
  rw [this, incr_of_lt hfit, hat]

theorem Accounts_decr {t : List ptr_details} {c c1 : Nat → Nat} {a p : Nat}
    (hacc : Accounts t c) (h : find_ptr_info t a = some p) (hpos : 1 ≤ c a)
    (hfit : c a < UINT_MOD) (hat : c1 a = c a - 1) (hother : ∀ b, b ≠ a → c1 b = c b) :
    Accounts (modifyAt decRef t p) c1 := by
  refine Accounts_modifyAt decRef_mem_ptr hacc h ?_ hother
  intro r hr hra
  have : r.refcount = c a := by rw [← hra]; exact hacc.2.1 r hr
  unfold decRef
  simp only
  rw [this, decr_of_pos hpos hfit, hat]

theorem Accounts_decrIfPositive {t : List ptr_details} {c c1 : Nat → Nat} {a p : Nat}
    (hacc : Accounts t c) (h : find_ptr_info t a = some p) (hpos : 1 ≤ c a)
    (hfit : c a < UINT_MOD) (hat : c1 a = c a - 1) (hother : ∀ b, b ≠ a → c1 b = c b) :
    Accounts (modifyAt decRefIfPositive t p) c1 := by
  refine Accounts_modifyAt decRefIfPositive_mem_ptr hacc h ?_ hother
  intro r hr hra
  have hrc : r.refcount = c a := by rw [← hra]; exact hacc.2.1 r hr
  have hne : r.refcount ≠ 0 := by omega
  unfold decRefIfPositive
  rw [if_pos hne]
  unfold decRef
  simp only
  rw [hrc, decr_of_pos hpos hfit, hat]

theorem Accounts_insert {t : List ptr_details} {c c1 : Nat → Nat} {a : Nat} (size : Nat)
    (hacc : Accounts t c) (h : find_ptr_info t a = none)
    (hat : c1 a = 1) (hother : ∀ b, b ≠ a → c1 b = c b) :
    Accounts (ptr_details.ctor a size :: t) c1 := by
  obtain ⟨hnd, hcnt, hcov⟩ := hacc
  have hfresh := (find_ptr_info_none t a).mp h
  refine ⟨?_, ?_, ?_⟩
  · rw [List.map_cons, List.nodup_cons]
    refine ⟨?_, hnd⟩
    intro hin
    rcases List.mem_map.mp hin with ⟨r, hr, hra⟩
    rw [ptr_details_ctor_mem_ptr] at hra
    exact hfresh r hr hra
  · intro x hx
    rcases List.mem_cons.mp hx with rfl | hx
    · rw [ptr_details_ctor_refcount, ptr_details_ctor_mem_ptr, hat]
    · rw [hother _ (hfresh x hx)]
      exact hcnt x hx
  · intro b hb
    by_cases hba : b = a
    · subst hba
      exact ⟨_, List.mem_cons_self _ _, ptr_details_ctor_mem_ptr _ _⟩
    · rw [hother b hba] at hb
      obtain ⟨r, hr, hrb⟩ := hcov b hb
      exact ⟨r, List.mem_cons_of_mem _ hr, hrb⟩

theorem Accounts_sweep {t : List ptr_details} {c : Nat → Nat} (hacc : Accounts t c) :
    Accounts (t.filter (fun r => !deadAddr t r.mem_ptr)) c := by
  obtain ⟨hnd, hcnt, hcov⟩ := hacc
  refine ⟨?_, ?_, ?_⟩
  · exact List.Nodup.sublist (List.Sublist.map _ (List.filter_sublist t)) hnd
  · intro r hr
    exact hcnt r ((mem_filter_live t r).mp hr).1
  · intro a ha
    obtain ⟨r, hr, hra⟩ := hcov a ha
    refine ⟨r, (mem_filter_live t r).mpr ⟨hr, ?_⟩, hra⟩
    intro z hz hz0 hzr
    have hzeq : z = r := eq_of_mem_ptr_eq hnd hz hr hzr
    rw [hzeq, hcnt r hr, hra] at hz0
    exact ha hz0

/-! ## Counting live handles -/

theorem liveAt_eq_some {hs : List (Option pointer)} {i : Nat} {h : pointer}
    (hl : liveAt hs i = some h) : hs[i]? = some (some h) := by
  unfold liveAt at hl
  cases hi : hs[i]? with
  | none => rw [hi] at hl; cases hl
  | some o => rw [hi] at hl; simp only at hl; rw [hl]

theorem liveAt_lt {hs : List (Option pointer)} {i : Nat} {h : pointer}
    (hl : liveAt hs i = some h) : i < hs.length := by
  rcases List.getElem?_eq_some_iff.mp (liveAt_eq_some hl) with ⟨hlt, _⟩
  exact hlt

theorem liveCount_append (hs : List (Option pointer)) (h : pointer) (b : Nat) :
    liveCount (hs ++ [some h]) b = liveCount hs b + (if h.addr_ = b then 1 else 0) := by
  unfold liveCount
  rw [List.countP_append]
  by_cases hb : h.addr_ = b
  · simp [List.countP_cons, pointsTo, hb]
  · simp [List.countP_cons, pointsTo, hb]

theorem countP_set (q : Option pointer → Bool) (hs : List (Option pointer)) (i : Nat)
    (o x : Option pointer) (hi : hs[i]? = some o) :
    (hs.set i x).countP q + (if q o then 1 else 0) = hs.countP q + (if q x then 1 else 0) := by
  induction hs generalizing i with
  | nil => simp at hi
  | cons y ys ih =>
    cases i with
    | zero =>
      simp only [List.getElem?_cons_zero, Option.some.injEq] at hi
      subst hi
      simp only [List.set_cons_zero, List.countP_cons]
      omega
    | succ i =>
      simp only [List.getElem?_cons_succ] at hi
      have := ih i hi
      simp only [List.set_cons_succ, List.countP_cons]
      omega

theorem liveCount_set {hs : List (Option pointer)} {i : Nat} {h : pointer}
    (hl : liveAt hs i = some h) (x : Option pointer) (b : Nat) :
    liveCount (hs.set i x) b + (if h.addr_ = b then 1 else 0)
      = liveCount hs b + (if pointsTo b x = true then 1 else 0) := by
  have := countP_set (pointsTo b) hs i (some h) x (liveAt_eq_some hl)
  unfold liveCount
  simp only [pointsTo, decide_eq_true_eq] at this
  exact this

theorem liveCount_pos {hs : List (Option pointer)} {i : Nat} {h : pointer}
    (hl : liveAt hs i = some h) : 1 ≤ liveCount hs h.addr_ := by
  unfold liveCount
  apply List.countP_pos_iff.mpr
  refine ⟨some h, ?_, by simp [pointsTo]⟩
  exact List.getElem?_mem (liveAt_eq_some hl)

theorem liveCount_ne_zero {hs : List (Option pointer)} {a : Nat} (h : liveCount hs a ≠ 0) :
    ∃ i x, liveAt hs i = some x ∧ x.addr_ = a := by
  unfold liveCount at h
  have hpos : 0 < hs.countP (pointsTo a) := Nat.pos_of_ne_zero h
  rcases List.countP_pos_iff.mp hpos with ⟨o, ho, hp⟩
  cases o with
  | none => simp [pointsTo] at hp
  | some x =>
    rcases List.getElem?_of_mem ho with ⟨i, hi⟩
    refine ⟨i, x, ?_, by simpa [pointsTo] using hp⟩
    simp only [liveAt, hi]

theorem countsFit_iff (hs : List (Option pointer)) :
    countsFit hs = true ↔ ∀ a, liveCount hs a < UINT_MOD := by
  unfold countsFit
  rw [List.all_eq_true]
  constructor
  · intro h a
    by_cases h0 : liveCount hs a = 0
    · rw [h0]; decide
    · obtain ⟨i, x, hx, hxa⟩ := liveCount_ne_zero h0
      have := h (some x) (List.getElem?_mem (liveAt_eq_some hx))
      simp only [decide_eq_true_eq] at this
      rw [hxa] at this
      exact this
  · intro h o _
    cases o with
    | none => rfl
    | some x => simp only [decide_eq_true_eq]; exact h x.addr_

/-! ## Each handle operation keeps the accounting -/

theorem Accounts_untracked_zero {t : List ptr_details} {c : Nat → Nat} {a : Nat}
    (hacc : Accounts t c) (h : find_ptr_info t a = none) : c a = 0 := by
  by_contra hne
  obtain ⟨r, hr, hra⟩ := hacc.2.2 a hne
  exact (find_ptr_info_none t a).mp h r hr hra

theorem Accounts_tracked {t : List ptr_details} {c : Nat → Nat} {a : Nat}
    (hacc : Accounts t c) (h : c a ≠ 0) : ∃ p, find_ptr_info t a = some p := by
  obtain ⟨r, hr, hra⟩ := hacc.2.2 a h
  rw [← hra]
  exact find_ptr_info_isSome hr

/-- Registering one more handle at `a`, as the constructors do. -/
theorem Accounts_register (size : Nat) {t : List ptr_details} {c c1 : Nat → Nat} {a : Nat}
    (hacc : Accounts t c) (hfit : c1 a < UINT_MOD)
    (hc1 : ∀ b, c1 b = c b + (if a = b then 1 else 0)) :
    Accounts (match find_ptr_info t a with
      | some p => modifyAt incRef t p
      | none => ptr_details.ctor a size :: t) c1 := by
  have hat : c1 a = c a + 1 := by rw [hc1 a, if_pos rfl]
  have hother : ∀ b, b ≠ a → c1 b = c b := by
    intro b hb
    rw [hc1 b, if_neg (fun e => hb e.symm)]
    rfl
  cases hf : find_ptr_info t a with
  | some p =>
    exact Accounts_incr hacc hf (by omega) hat hother
  | none =>
    have h0 := Accounts_untracked_zero hacc hf
    exact Accounts_insert size hacc hf (by omega) hother

/-- Retargeting a handle from `old` to `a`: the decrement of `old` followed by
the registration of `a`. -/
theorem Accounts_retarget (size : Nat) {t : List ptr_details} {c c1 : Nat → Nat}
    {old a p : Nat} (hacc : Accounts t c) (hp : find_ptr_info t old = some p)
    (hpos : 1 ≤ c old) (hfit : c old < UINT_MOD) (hfit1 : c1 a < UINT_MOD)
    (hc1 : ∀ b, c1 b + (if old = b then 1 else 0) = c b + (if a = b then 1 else 0)) :
    Accounts (match find_ptr_info (modifyAt decRef t p) a with
      | some q => modifyAt incRef (modifyAt decRef t p) q
      | none => ptr_details.ctor a size :: modifyAt decRef t p) c1 := by
  have hmid : Accounts (modifyAt decRef t p) (fun b => if b = old then c old - 1 else c b) :=
    Accounts_decr hacc hp hpos hfit (by simp) (by intro b hb; simp [hb])
  refine Accounts_register size hmid hfit1 ?_
  intro b
  have := hc1 b
  by_cases h1 : old = b
  · subst h1
    by_cases h2 : a = old
    · subst h2
      simp only [if_true] at this ⊢
      omega
    · simp only [if_true, if_neg h2] at this ⊢
      omega
  · have h1b : ¬ b = old := fun e => h1 e.symm
    by_cases h2 : a = b
    · simp only [if_neg h1, if_pos h2, if_neg h1b] at this ⊢
      omega
    · simp only [if_neg h1, if_neg h2, if_neg h1b] at this ⊢
      omega

theorem step_construct_inv (Size : Int) {s s1 : GcState} (a : Nat) (hinv : StateInv s)
    (hfit1 : countsFit s1.handles = true) (hstep : step Size s (.construct a) = some s1) :
    StateInv s1 := by
  simp only [step, Option.some.injEq] at hstep
  subst hstep
  unfold StateInv
  simp only [pointer.ctor] at hfit1 ⊢
  refine Accounts_register _ hinv ((countsFit_iff _).mp hfit1 a) ?_
  intro b
  rw [liveCount_append]

theorem step_copy_inv (Size : Int) {s s1 : GcState} (i : Nat) (hinv : StateInv s)
    (hfit1 : countsFit s1.handles = true) (hstep : step Size s (.copy i) = some s1) :
    StateInv s1 := by
  simp only [step] at hstep
  cases hl : liveAt s.handles i with
  | none => rw [hl] at hstep; cases hstep
  | some ob =>
    rw [hl] at hstep
    simp only [pointer.copy] at hstep
    cases hf : find_ptr_info s.ref_container_ ob.addr_ with
    | none => rw [hf] at hstep; cases hstep
    | some p =>
      rw [hf] at hstep
      simp only [Option.some.injEq] at hstep
      subst hstep
      unfold StateInv
      simp only at hfit1 ⊢
      have hc1 : ∀ b, liveCount (s.handles ++
          [some ⟨ob.addr_, decide (ob.array_size_ > 0), ob.array_size_⟩]) b
          = liveCount s.handles b + (if ob.addr_ = b then 1 else 0) := by
        intro b
        rw [liveCount_append]
      have hreg := Accounts_register 0 hinv ((countsFit_iff _).mp hfit1 ob.addr_) hc1
      rw [hf] at hreg
      exact hreg

theorem step_assignRaw_inv (Size : Int) {s s1 : GcState} (i a : Nat) (hinv : StateInv s)
    (hfit : countsFit s.handles = true) (hfit1 : countsFit s1.handles = true)
    (hstep : step Size s (.assignRaw i a) = some s1) : StateInv s1 := by
  simp only [step] at hstep
  cases hl : liveAt s.handles i with
  | none => rw [hl] at hstep; cases hstep
  | some h =>
    rw [hl] at hstep
    cases hf : find_ptr_info s.ref_container_ h.addr_ with
    | none => simp only [pointer.assignRaw, hf] at hstep; cases hstep
    | some p =>
      simp only [pointer.assignRaw, hf, Option.some.injEq] at hstep
      subst hstep
      unfold StateInv
      simp only at hfit1 ⊢
      refine Accounts_retarget _ hinv hf (liveCount_pos hl) ((countsFit_iff _).mp hfit _)
        ((countsFit_iff _).mp hfit1 a) ?_
      intro b
      rw [liveCount_set hl]
      simp only [pointsTo, decide_eq_true_eq]

theorem step_assign_inv (Size : Int) {s s1 : GcState} (i j : Nat) (hinv : StateInv s)
    (hfit : countsFit s.handles = true) (hfit1 : countsFit s1.handles = true)
    (hstep : step Size s (.assign i j) = some s1) : StateInv s1 := by
  simp only [step] at hstep
  cases hl : liveAt s.handles i with
  | none => rw [hl] at hstep; cases hstep
  | some h =>
    cases hlj : liveAt s.handles j with
    | none => rw [hl, hlj] at hstep; cases hstep
    | some rv =>
      rw [hl, hlj] at hstep
      cases hf : find_ptr_info s.ref_container_ h.addr_ with
      | none => simp only [pointer.assign, hf] at hstep; cases hstep
      | some p =>
        cases hq : find_ptr_info (modifyAt decRef s.ref_container_ p) rv.addr_ with
        | none => simp only [pointer.assign, hf, hq] at hstep; cases hstep
        | some q =>
          simp only [pointer.assign, hf, hq, Option.some.injEq] at hstep
          subst hstep
          unfold StateInv
          simp only at hfit1 ⊢
          have hc1 : ∀ b,
              liveCount (s.handles.set i (some ⟨rv.addr_, h.is_array_, h.array_size_⟩)) b
                + (if h.addr_ = b then 1 else 0)
              = liveCount s.handles b + (if rv.addr_ = b then 1 else 0) := by
            intro b
            rw [liveCount_set hl]
            simp only [pointsTo, decide_eq_true_eq]
          have hret := Accounts_retarget 0 hinv hf (liveCount_pos hl)
            ((countsFit_iff _).mp hfit _) ((countsFit_iff _).mp hfit1 rv.addr_) hc1
          rw [hq] at hret
          exact hret

theorem step_destruct_inv (Size : Int) {s s1 : GcState} (i : Nat) (hinv : StateInv s)
    (hfit : countsFit s.handles = true)
    (hstep : step Size s (.destruct i) = some s1) : StateInv s1 := by
  simp only [step] at hstep
  cases hl : liveAt s.handles i with
  | none => rw [hl] at hstep; cases hstep
  | some h =>
    rw [hl] at hstep
    cases hf : find_ptr_info s.ref_container_ h.addr_ with
    | none => simp only [pointer.dtor, hf] at hstep; cases hstep
    | some p =>
      simp only [pointer.dtor, hf] at hstep
      obtain ⟨l, n, hcol, _, _⟩ := collect_spec (modifyAt decRefIfPositive s.ref_container_ p)
      rw [hcol] at hstep
      simp only [Option.some.injEq] at hstep
      subst hstep
      unfold StateInv
      simp only
      apply Accounts_sweep
      have hset := liveCount_set hl none
      have hpos := liveCount_pos hl
      refine Accounts_decrIfPositive hinv hf hpos ((countsFit_iff _).mp hfit _) ?_ ?_
      · have := hset h.addr_
        simp only [pointsTo, if_true] at this
        simp only [Bool.false_eq_true, if_false] at this
        omega
      · intro b hb
        have hne : ¬ h.addr_ = b := fun e => hb e.symm
        have := hset b
        simp only [pointsTo, if_neg hne] at this
        simp only [Bool.false_eq_true, if_false] at this
        omega

/-! ## Sequences of operations -/

theorem step_handleOp_inv (Size : Int) {s s1 : GcState} (op : Op)
    (hop : op.isHandleOp = true) (hinv : StateInv s)
    (hfit : countsFit s.handles = true) (hfit1 : countsFit s1.handles = true)
    (hstep : step Size s op = some s1) : StateInv s1 := by
  cases op with
  | construct a => exact step_construct_inv Size a hinv hfit1 hstep
  | copy i => exact step_copy_inv Size i hinv hfit1 hstep
  | assignRaw i a => exact step_assignRaw_inv Size i a hinv hfit hfit1 hstep
  | assign i j => exact step_assign_inv Size i j hinv hfit hfit1 hstep
  | destruct i => exact step_destruct_inv Size i hinv hfit hstep
  | collect => cases hop
  | shutdown => cases hop

theorem runFits_head (Size : Int) (s : GcState) (ops : List Op)
    (h : runFits Size s ops = true) : countsFit s.handles = true := by
  cases ops with
  | nil => exact h
  | cons op ops =>
    simp only [runFits, Bool.and_eq_true] at h
    exact h.1

theorem run_inv (Size : Int) (ops : List Op) : ∀ (s s2 : GcState),
    (∀ op ∈ ops, op.isHandleOp = true) → StateInv s → runFits Size s ops = true →
    run Size s ops = some s2 → StateInv s2 := by
  induction ops with
  | nil =>
    intro s s2 _ hinv _ hrun
    simp only [run, Option.some.injEq] at hrun
    rw [← hrun]
    exact hinv
  | cons op ops ih =>
    intro s s2 hops hinv hfit hrun
    simp only [run] at hrun
    simp only [runFits, Bool.and_eq_true] at hfit
    cases hstep : step Size s op with
    | none => rw [hstep] at hrun; cases hrun
    | some s1 =>
      rw [hstep] at hrun
      have hfit1 := hfit.2
      rw [hstep] at hfit1
      simp only at hrun hfit1
      have hinv1 := step_handleOp_inv Size op (hops op (List.mem_cons_self _ _)) hinv hfit.1
        (runFits_head Size s1 ops hfit1) hstep
      exact ih s1 s2 (fun o ho => hops o (List.mem_cons_of_mem _ ho)) hinv1 hfit1 hrun

theorem run_append (Size : Int) (pre post : List Op) : ∀ (s s2 : GcState),
    run Size s (pre ++ post) = some s2 →
    ∃ s1, run Size s pre = some s1 ∧ run Size s1 post = some s2 := by
  induction pre with
  | nil => intro s s2 h; exact ⟨s, rfl, h⟩
  | cons op pre ih =>
    intro s s2 h
    simp only [List.cons_append, run] at h ⊢
    cases hstep : step Size s op with
    | none => rw [hstep] at h; cases h
    | some s1 =>
      rw [hstep] at h
      exact ih s1 s2 h

theorem runFits_append (Size : Int) (pre post : List Op) : ∀ (s : GcState),
    runFits Size s (pre ++ post) = true → runFits Size s pre = true := by
  induction pre with
  | nil => intro s h; exact runFits_head Size s _ h
  | cons op pre ih =>
    intro s h
    simp only [List.cons_append, runFits, Bool.and_eq_true] at h ⊢
    refine ⟨h.1, ?_⟩
    cases hstep : step Size s op with
    | none => rfl
    | some s1 =>
      have h2 := h.2
      rw [hstep] at h2
      exact ih s1 h2

theorem StateInv_init : StateInv GcState.init := by
  refine ⟨by simp [GcState.init], by simp [GcState.init], ?_⟩
  intro a ha
  exact absurd rfl ha

/-- An operation on live handles never dereferences `end()` in a state that
meets the accounting invariant. -/
theorem step_defined (Size : Int) {s : GcState} (op : Op) (hinv : StateInv s)
    (hlive : op.onLive s.handles = true) : ∃ s1, step Size s op = some s1 := by
  have htracked : ∀ i h, liveAt s.handles i = some h →
      ∃ p, find_ptr_info s.ref_container_ h.addr_ = some p := by
    intro i h hl
    have := liveCount_pos hl
    exact Accounts_tracked hinv (by omega)
  cases op with
  | construct a => exact ⟨_, rfl⟩
  | copy i =>
    simp only [Op.onLive, Option.isSome_iff_exists] at hlive
    obtain ⟨h, hl⟩ := hlive
    obtain ⟨p, hp⟩ := htracked i h hl
    simp only [step, hl, pointer.copy, hp]
    exact ⟨_, rfl⟩
  | assignRaw i a =>
    simp only [Op.onLive, Option.isSome_iff_exists] at hlive
    obtain ⟨h, hl⟩ := hlive
    obtain ⟨p, hp⟩ := htracked i h hl
    simp only [step, hl, pointer.assignRaw, hp]
    exact ⟨_, rfl⟩
  | assign i j =>
    simp only [Op.onLive, Bool.and_eq_true, Option.isSome_iff_exists] at hlive
    obtain ⟨⟨h, hl⟩, ⟨rv, hlj⟩⟩ := hlive
    obtain ⟨p, hp⟩ := htracked i h hl
    obtain ⟨q, hq⟩ := htracked j rv hlj
    have hq1 : find_ptr_info (modifyAt decRef s.ref_container_ p) rv.addr_ = some q := by
      rw [find_ptr_info_modifyAt decRef_mem_ptr]; exact hq
    simp only [step, hl, hlj, pointer.assign, hp, hq1]
    exact ⟨_, rfl⟩
  | destruct i =>
    simp only [Op.onLive, Option.isSome_iff_exists] at hlive
    obtain ⟨h, hl⟩ := hlive
    obtain ⟨p, hp⟩ := htracked i h hl
    obtain ⟨l, n, hcol, _, _⟩ := collect_spec (modifyAt decRefIfPositive s.ref_container_ p)
    simp only [step, hl, pointer.dtor, hp, hcol]
    exact ⟨_, rfl⟩
  | collect =>
    obtain ⟨l, n, hcol, _, _⟩ := collect_spec s.ref_container_
    simp only [step, hcol]
    exact ⟨_, rfl⟩
  | shutdown =>
    simp only [step, shutdown]
    by_cases h0 : s.ref_container_.length = 0
    · simp only [h0, if_true]
      exact ⟨_, rfl⟩
    · obtain ⟨l, n, hcol, _, _⟩ := collect_spec (s.ref_container_.map zeroRef)
      simp only [h0, if_false, hcol]
      exact ⟨_, rfl⟩

/-- Every handle of a state reached from the initial one has the flag the
constructors compute from its length. -/
theorem run_handles_wellFormed (Size : Int) (ops : List Op) : ∀ (s s1 : GcState),
    (∀ i h, liveAt s.handles i = some h → h.WellFormed) → run Size s ops = some s1 →
    ∀ i h, liveAt s1.handles i = some h → h.WellFormed := by
  have happ : ∀ (hs : List (Option pointer)) (x : pointer),
      (∀ i h, liveAt hs i = some h → h.WellFormed) → x.WellFormed →
      ∀ i h, liveAt (hs ++ [some x]) i = some h → h.WellFormed := by
    intro hs x hall hx i h hl
    have hmem : some h ∈ hs ++ [some x] := List.getElem?_mem (liveAt_eq_some hl)
    rcases List.mem_append.mp hmem with hm | hm
    · obtain ⟨j, hj⟩ := List.getElem?_of_mem hm
      exact hall j h (by simp only [liveAt, hj])
    · simp only [List.mem_singleton, Option.some.injEq] at hm
      rw [hm]
      exact hx
  have hset : ∀ (hs : List (Option pointer)) (k : Nat) (o : Option pointer),
      (∀ i h, liveAt hs i = some h → h.WellFormed) → (∀ x, o = some x → x.WellFormed) →
      ∀ i h, liveAt (hs.set k o) i = some h → h.WellFormed := by
    intro hs k o hall ho i h hl
    have hmem : some h ∈ hs.set k o := List.getElem?_mem (liveAt_eq_some hl)
    rcases List.mem_or_eq_of_mem_set hmem with hm | hm
    · obtain ⟨j, hj⟩ := List.getElem?_of_mem hm
      exact hall j h (by simp only [liveAt, hj])
    · exact ho h hm.symm
  induction ops with
  | nil =>
    intro s s1 hall hrun
    simp only [run, Option.some.injEq] at hrun
    rw [← hrun]
    exact hall
  | cons op ops ih =>
    intro s s1 hall hrun
    simp only [run] at hrun
    cases hstep : step Size s op with
    | none => rw [hstep] at hrun; cases hrun
    | some s2 =>
      rw [hstep] at hrun
      refine ih s2 s1 ?_ hrun
      cases op with
      | construct a =>
        simp only [step, Option.some.injEq] at hstep
        rw [← hstep]
        exact happ _ _ hall rfl
      | copy i =>
        simp only [step] at hstep
        cases hl : liveAt s.handles i with
        | none => rw [hl] at hstep; cases hstep
        | some ob =>
          rw [hl] at hstep
          cases hf : find_ptr_info s.ref_container_ ob.addr_ with
          | none => simp only [pointer.copy, hf] at hstep; cases hstep
          | some p =>
            simp only [pointer.copy, hf, Option.some.injEq] at hstep
            rw [← hstep]
            exact happ _ _ hall rfl
      | assignRaw i a =>
        simp only [step] at hstep
        cases hl : liveAt s.handles i with
        | none => rw [hl] at hstep; cases hstep
        | some h =>
          rw [hl] at hstep
          cases hf : find_ptr_info s.ref_container_ h.addr_ with
          | none => simp only [pointer.assignRaw, hf] at hstep; cases hstep
          | some p =>
            simp only [pointer.assignRaw, hf, Option.some.injEq] at hstep
            rw [← hstep]
            refine hset _ _ _ hall ?_
            intro x hx
            simp only [Option.some.injEq] at hx
            rw [← hx]
            exact hall i h hl
      | assign i j =>
        simp only [step] at hstep
        cases hl : liveAt s.handles i with
        | none => rw [hl] at hstep; cases hstep
        | some h =>
          cases hlj : liveAt s.handles j with
          | none => rw [hl, hlj] at hstep; cases hstep
          | some rv =>
            rw [hl, hlj] at hstep
            cases hf : find_ptr_info s.ref_container_ h.addr_ with
            | none => simp only [pointer.assign, hf] at hstep; cases hstep
            | some p =>
              cases hq : find_ptr_info (modifyAt decRef s.ref_container_ p) rv.addr_ with
              | none => simp only [pointer.assign, hf, hq] at hstep; cases hstep
              | some q =>
                simp only [pointer.assign, hf, hq, Option.some.injEq] at hstep
                rw [← hstep]
                refine hset _ _ _ hall ?_
                intro x hx
                simp only [Option.some.injEq] at hx
                rw [← hx]
                exact hall i h hl
      | destruct i =>
        simp only [step] at hstep
        cases hl : liveAt s.handles i with
        | none => rw [hl] at hstep; cases hstep
        | some h =>
          rw [hl] at hstep
          simp only at hstep
          cases hd : pointer.dtor s.ref_container_ h with
          | none => rw [hd] at hstep; cases hstep
          | some st =>
            rw [hd] at hstep
            simp only [Option.some.injEq] at hstep
            rw [← hstep]
            refine hset _ _ _ hall ?_
            intro x hx
            cases hx
      | collect =>
        simp only [step] at hstep
        cases hc : collect s.ref_container_ with
        | none => rw [hc] at hstep; cases hstep
        | some st =>
          rw [hc] at hstep
          simp only [Option.some.injEq] at hstep
          rw [← hstep]
          exact hall
      | shutdown =>
        simp only [step] at hstep
        cases hc : shutdown s.ref_container_ with
        | none => rw [hc] at hstep; cases hstep
        | some st =>
          rw [hc] at hstep
          simp only [Option.some.injEq] at hstep
          rw [← hstep]
          exact hall

theorem run_cons_of_step {Size : Int} {s s1 : GcState} {op : Op} {ops : List Op}
    (h : step Size s op = some s1) : run Size s (op :: ops) = run Size s1 ops := by
  simp only [run, h]

theorem liveCount_append_replicate (hs : List (Option pointer)) (h : pointer) (n : Nat) :
    liveCount (hs ++ List.replicate n (some h)) h.addr_ = liveCount hs h.addr_ + n := by
  unfold liveCount
  rw [List.countP_append, List.countP_replicate]
  simp [pointsTo]

/-- Constructing `n` more handles over an address whose record is alone in the
table adds `n` to its refcount modulo `2 ^ 32`. -/
theorem run_construct_replicate (Size : Int) (a : Nat) (f : Bool) (sz : Nat) (n : Nat) :
    ∀ (k : Nat) (hs : List (Option pointer)), k < UINT_MOD →
    run Size ⟨[⟨k, a, f, sz⟩], hs⟩ (List.replicate n (Op.construct a)) =
      some ⟨[⟨(k + n) % UINT_MOD, a, f, sz⟩],
        hs ++ List.replicate n (some ⟨a, decide (toUnsigned Size > 0), toUnsigned Size⟩)⟩ := by
  induction n with
  | zero =>
    intro k hs hk
    simp only [List.replicate_zero, run, List.append_nil, Nat.add_zero, Nat.mod_eq_of_lt hk]
  | succ n ih =>
    intro k hs hk
    have hstep : step Size ⟨[⟨k, a, f, sz⟩], hs⟩ (Op.construct a) =
        some ⟨[⟨(k + 1) % UINT_MOD, a, f, sz⟩],
          hs ++ [some ⟨a, decide (toUnsigned Size > 0), toUnsigned Size⟩]⟩ := by
      simp only [step, pointer.ctor, find_ptr_info, if_true, modifyAt, incRef, incr]
    rw [List.replicate_succ]
    simp only [run, hstep]
    rw [ih ((k + 1) % UINT_MOD) _ (Nat.mod_lt _ (by decide))]
    have e1 : ((k + 1) % UINT_MOD + n) % UINT_MOD = (k + (n + 1)) % UINT_MOD := by
      rw [Nat.add_mod, Nat.mod_mod, ← Nat.add_mod]
      congr 1
      omega
    rw [e1, List.append_assoc]
    rfl

/-- C1, the claim as stated fails: after `2 ^ 32` constructions of handles over
one address, all of them live, the record of that address has refcount 0. -/
theorem refcount_accounting_fails :
    ∃ s, run 0 GcState.init
        (Op.construct 7 :: List.replicate 4294967295 (Op.construct 7)) = some s ∧
      s.ref_container_ = [⟨0, 7, false, 0⟩] ∧
      liveCount s.handles 7 = 4294967296 ∧
      ∃ r ∈ s.ref_container_, r.refcount ≠ liveCount s.handles r.mem_ptr := by
  have hstep : step 0 GcState.init (Op.construct 7) =
      some ⟨[⟨1, 7, false, 0⟩], [some ⟨7, false, 0⟩]⟩ := by decide
  have hrun := run_construct_replicate 0 7 false 0 4294967295 1 [some ⟨7, false, 0⟩]
    (by decide)
  have h1 : (1 + 4294967295) % UINT_MOD = 0 := by decide
  have h2 : toUnsigned 0 = 0 := by decide
  have h3 : decide (toUnsigned 0 > 0) = false := by decide
  rw [h1, h3, h2] at hrun
  have hcount : liveCount
      ([some (pointer.mk 7 false 0)] ++ List.replicate 4294967295 (some (pointer.mk 7 false 0))) 7
      = 4294967296 :=
    liveCount_append_replicate [some ⟨7, false, 0⟩] ⟨7, false, 0⟩ 4294967295
  refine ⟨GcState.mk [ptr_details.mk 0 7 false 0]
    ([some (pointer.mk 7 false 0)] ++ List.replicate 4294967295 (some (pointer.mk 7 false 0))),
    ?_, rfl, hcount, ptr_details.mk 0 7 false 0, List.mem_singleton.mpr rfl, ?_⟩
  · rw [run_cons_of_step hstep]
    exact hrun
  · show (0 : Nat) ≠ liveCount
      ([some (pointer.mk 7 false 0)] ++
        List.replicate 4294967295 (some (pointer.mk 7 false 0))) 7
    rw [hcount]
    decide

/-- C1, amended: for every sequence of constructions, copies, assignments (from a
raw address or from a handle) and destructions, run from the empty table with no
handle, naming only live handles, and in which no address is ever held by
`2 ^ 32` live handles or more: after every prefix of the sequence each record of
the table has a refcount equal to the number of live handles whose stored
address is the record's address, every live handle's address has a record, and
every operation naming only live handles is defined. -/
theorem refcount_accounting (Size : Int) (pre post : List Op) (s : GcState)
    (hops : ∀ op ∈ pre ++ post, op.isHandleOp = true)
    (hfit : runFits Size GcState.init (pre ++ post) = true)
    (hrun : run Size GcState.init (pre ++ post) = some s) :
    ∃ s1, run Size GcState.init pre = some s1 ∧
      (∀ r ∈ s1.ref_container_, r.refcount = liveCount s1.handles r.mem_ptr) ∧
      (∀ i h, liveAt s1.handles i = some h → ∃ r ∈ s1.ref_container_, r.mem_ptr = h.addr_) ∧
      (∀ op, op.onLive s1.handles = true → ∃ s2, step Size s1 op = some s2) := by
  obtain ⟨s1, hpre, _⟩ := run_append Size pre post _ _ hrun
  have hinv : StateInv s1 := run_inv Size pre _ _
    (fun o ho => hops o (List.mem_append_left _ ho)) StateInv_init
    (runFits_append Size pre post _ hfit) hpre
  refine ⟨s1, hpre, hinv.2.1, ?_, fun op hl => step_defined Size op hinv hl⟩
  intro i h hl
  have := liveCount_pos hl
  exact hinv.2.2 h.addr_ (by omega)

/-- C1, the amended claim on a run that constructs, copies, reassigns and
destroys handles. -/
theorem refcount_accounting_witness :
    ∃ s1, run 0 GcState.init [.construct 11, .copy 0, .assignRaw 0 12, .assign 1 0] = some s1 ∧
      (∀ r ∈ s1.ref_container_, r.refcount = liveCount s1.handles r.mem_ptr) ∧
      (∀ i h, liveAt s1.handles i = some h → ∃ r ∈ s1.ref_container_, r.mem_ptr = h.addr_) ∧
      (∀ op, op.onLive s1.handles = true → ∃ s2, step 0 s1 op = some s2) :=
  refcount_accounting 0 [.construct 11, .copy 0, .assignRaw 0 12, .assign 1 0]
    [.destruct 0, .destruct 1] ⟨[], [none, none]⟩ (by decide) (by decide) (by decide)

/-! ## At most one record per address -/

theorem nodup_register (size : Nat) {t : List ptr_details} (a : Nat)
    (hnd : (t.map (·.mem_ptr)).Nodup) :
    (List.map (fun r : ptr_details => r.mem_ptr)
      (match find_ptr_info t a with
        | some p => modifyAt incRef t p
        | none => ptr_details.ctor a size :: t)).Nodup := by
  cases hf : find_ptr_info t a with
  | some p =>
    simp only
    rw [map_mem_ptr_modifyAt incRef_mem_ptr]
    exact hnd
  | none =>
    simp only
    rw [List.map_cons, List.nodup_cons]
    refine ⟨?_, hnd⟩
    intro hin
    rcases List.mem_map.mp hin with ⟨r, hr, hra⟩
    rw [ptr_details_ctor_mem_ptr] at hra
    exact (find_ptr_info_none t a).mp hf r hr hra

theorem nodup_collect {t : List ptr_details} {st : CollectState}
    (hnd : (t.map (·.mem_ptr)).Nodup) (h : collect t = some st) :
    (st.ref_container_.map (·.mem_ptr)).Nodup := by
  obtain ⟨l, n, hcol, _, _⟩ := collect_spec t
  rw [hcol] at h
  simp only [Option.some.injEq] at h
  rw [← h]
  exact List.Nodup.sublist (List.Sublist.map _ (List.filter_sublist t)) hnd

theorem map_mem_ptr_zeroRef (t : List ptr_details) :
    (t.map zeroRef).map (·.mem_ptr) = t.map (·.mem_ptr) := by
  rw [List.map_map]
  rfl

theorem step_nodup (Size : Int) {s s1 : GcState} (op : Op)
    (hnd : (s.ref_container_.map (·.mem_ptr)).Nodup) (hstep : step Size s op = some s1) :
    (s1.ref_container_.map (·.mem_ptr)).Nodup := by
  have hdec : ∀ p, ((modifyAt decRef s.ref_container_ p).map (·.mem_ptr)).Nodup := by
    intro p
    rw [map_mem_ptr_modifyAt decRef_mem_ptr]
    exact hnd
  cases op with
  | construct a =>
    simp only [step, Option.some.injEq] at hstep
    rw [← hstep]
    exact nodup_register _ a hnd
  | copy i =>
    simp only [step] at hstep
    cases hl : liveAt s.handles i with
    | none => rw [hl] at hstep; cases hstep
    | some ob =>
      rw [hl] at hstep
      cases hf : find_ptr_info s.ref_container_ ob.addr_ with
      | none => simp only [pointer.copy, hf] at hstep; cases hstep
      | some p =>
        simp only [pointer.copy, hf, Option.some.injEq] at hstep
        rw [← hstep]
        simp only
        rw [map_mem_ptr_modifyAt incRef_mem_ptr]
        exact hnd
  | assignRaw i a =>
    simp only [step] at hstep
    cases hl : liveAt s.handles i with
    | none => rw [hl] at hstep; cases hstep
    | some h =>
      rw [hl] at hstep
      cases hf : find_ptr_info s.ref_container_ h.addr_ with
      | none => simp only [pointer.assignRaw, hf] at hstep; cases hstep
      | some p =>
        simp only [pointer.assignRaw, hf, Option.some.injEq] at hstep
        rw [← hstep]
        exact nodup_register _ a (hdec p)
  | assign i j =>
    simp only [step] at hstep
    cases hl : liveAt s.handles i with
    | none => rw [hl] at hstep; cases hstep
    | some h =>
      cases hlj : liveAt s.handles j with
      | none => rw [hl, hlj] at hstep; cases hstep
      | some rv =>
        rw [hl, hlj] at hstep
        cases hf : find_ptr_info s.ref_container_ h.addr_ with
        | none => simp only [pointer.assign, hf] at hstep; cases hstep
        | some p =>
          cases hq : find_ptr_info (modifyAt decRef s.ref_container_ p) rv.addr_ with
          | none => simp only [pointer.assign, hf, hq] at hstep; cases hstep
          | some q =>
            simp only [pointer.assign, hf, hq, Option.some.injEq] at hstep
            rw [← hstep]
            simp only
            rw [map_mem_ptr_modifyAt incRef_mem_ptr]
            exact hdec p
  | destruct i =>
    simp only [step] at hstep
    cases hl : liveAt s.handles i with
    | none => rw [hl] at hstep; cases hstep
    | some h =>
      rw [hl] at hstep
      cases hf : find_ptr_info s.ref_container_ h.addr_ with
      | none => simp only [pointer.dtor, hf] at hstep; cases hstep
      | some p =>
        simp only [pointer.dtor, hf] at hstep
        cases hc : collect (modifyAt decRefIfPositive s.ref_container_ p) with
        | none => rw [hc] at hstep; cases hstep
        | some st =>
          rw [hc] at hstep
          simp only [Option.some.injEq] at hstep
          rw [← hstep]
          refine nodup_collect ?_ hc
          rw [map_mem_ptr_modifyAt decRefIfPositive_mem_ptr]
          exact hnd
  | collect =>
    simp only [step] at hstep
    cases hc : collect s.ref_container_ with
    | none => rw [hc] at hstep; cases hstep
    | some st =>
      rw [hc] at hstep
      simp only [Option.some.injEq] at hstep
      rw [← hstep]
      exact nodup_collect hnd hc
  | shutdown =>
    simp only [step] at hstep
    cases hc : shutdown s.ref_container_ with
    | none => rw [hc] at hstep; cases hstep
    | some st =>
      rw [hc] at hstep
      simp only [Option.some.injEq] at hstep
      rw [← hstep]
      simp only
      unfold shutdown at hc
      by_cases h0 : s.ref_container_.length = 0
      · rw [if_pos h0] at hc
        simp only [Option.some.injEq] at hc
        rw [← hc]
        exact hnd
      · rw [if_neg h0] at hc
        refine nodup_collect ?_ hc
        rw [map_mem_ptr_zeroRef]
        exact hnd

theorem run_nodup (Size : Int) (ops : List Op) : ∀ (s s1 : GcState),
    (s.ref_container_.map (·.mem_ptr)).Nodup → run Size s ops = some s1 →
    (s1.ref_container_.map (·.mem_ptr)).Nodup := by
  induction ops with
  | nil =>
    intro s s1 hnd hrun
    simp only [run, Option.some.injEq] at hrun
    rw [← hrun]
    exact hnd
  | cons op ops ih =>
    intro s s1 hnd hrun
    simp only [run] at hrun
    cases hstep : step Size s op with
    | none => rw [hstep] at hrun; cases hrun
    | some s2 =>
      rw [hstep] at hrun
      exact ih s2 s1 (step_nodup Size op hnd hstep) hrun

/-- C2: every table reached from the empty table by a sequence of constructions,
copies, assignments (from a raw address or from a handle), destructions,
`collect` and `shutdown` calls holds at most one record per address: the
addresses of its records are pairwise distinct, and for each address the number
of records with that address is at most 1. -/
theorem address_uniqueness (Size : Int) (ops : List Op) (s : GcState)
    (hrun : run Size GcState.init ops = some s) :
    (s.ref_container_.map (·.mem_ptr)).Nodup ∧
    ∀ a, s.ref_container_.countP (fun r => decide (r.mem_ptr = a)) ≤ 1 := by
  have hnd := run_nodup Size ops GcState.init s (by simp [GcState.init]) hrun
  refine ⟨hnd, fun a => ?_⟩
  have h1 := List.nodup_iff_count_le_one.mp hnd a
  rw [List.count_eq_countP, List.countP_map] at h1
  have e : ((fun x => x == a) ∘ fun r : ptr_details => r.mem_ptr)
      = fun r => decide (r.mem_ptr = a) := by
    funext r
    by_cases hr : r.mem_ptr = a
    · simp [hr]
    · simp [hr]
  rw [e] at h1
  exact h1

/-- C2 on a run through all seven operations. -/
theorem address_uniqueness_witness :
    ((([⟨1, 12, false, 0⟩, ⟨2, 11, false, 0⟩] : List ptr_details).map (·.mem_ptr)).Nodup) ∧
    ∀ a, ([⟨1, 12, false, 0⟩, ⟨2, 11, false, 0⟩] : List ptr_details).countP
      (fun r => decide (r.mem_ptr = a)) ≤ 1 :=
  address_uniqueness 0
    [.construct 11, .copy 0, .construct 12, .assignRaw 2 13, .assign 2 0, .collect,
      .construct 12, .destruct 1]
    ⟨[⟨1, 12, false, 0⟩, ⟨2, 11, false, 0⟩],
      [some ⟨11, false, 0⟩, none, some ⟨11, false, 0⟩, some ⟨12, false, 0⟩]⟩ (by decide)

/-! ## Destruction -/

theorem recordOf_mem {t : List ptr_details} {a : Nat} {r : ptr_details}
    (h : recordOf t a = some r) : r ∈ t ∧ r.mem_ptr = a := by
  unfold recordOf at h
  cases hf : find_ptr_info t a with
  | none => rw [hf] at h; cases h
  | some p =>
    rw [hf] at h
    simp only at h
    obtain ⟨r1, hr1, hra, hmem⟩ := find_ptr_info_some hf
    rw [hr1] at h
    cases h
    exact ⟨hmem, hra⟩

theorem recordOf_of_mem {t : List ptr_details} (hnd : (t.map (·.mem_ptr)).Nodup)
    {r : ptr_details} (hr : r ∈ t) : recordOf t r.mem_ptr = some r := by
  obtain ⟨p, hp⟩ := find_ptr_info_isSome hr
  obtain ⟨r1, hr1, hra, hmem⟩ := find_ptr_info_some hp
  have : r1 = r := eq_of_mem_ptr_eq hnd hmem hr hra
  simp only [recordOf, hp, hr1, this]

/-- The destructor on a table with one record per address, for a handle whose
record `r` has a refcount from 1 to `2 ^ 32 - 1`. -/
theorem dtor_spec {t : List ptr_details} (hnd : (t.map (·.mem_ptr)).Nodup) {h : pointer}
    {r : ptr_details} (hr : recordOf t h.addr_ = some r) (h1 : 1 ≤ r.refcount)
    (hmax : r.refcount < UINT_MOD) :
    ∃ st, pointer.dtor t h = some st ∧
      (st.ref_container_.map (·.mem_ptr)).Nodup ∧
      (r.refcount = 1 → ∀ x ∈ st.ref_container_, x.mem_ptr ≠ h.addr_) ∧
      (1 < r.refcount → recordOf st.ref_container_ h.addr_ =
        some ⟨r.refcount - 1, h.addr_, r.is_array, r.array_size⟩) ∧
      (∀ x ∈ st.ref_container_, x.refcount ≠ 0) := by
  obtain ⟨hrt, hra⟩ := recordOf_mem hr
  obtain ⟨p, hp⟩ : ∃ p, find_ptr_info t h.addr_ = some p := by
    rw [← hra]; exact find_ptr_info_isSome hrt
  obtain ⟨l, n, hcol, _, _⟩ := collect_spec (modifyAt decRefIfPositive t p)
  have hnd1 : ((modifyAt decRefIfPositive t p).map (·.mem_ptr)).Nodup := by
    rw [map_mem_ptr_modifyAt decRefIfPositive_mem_ptr]; exact hnd
  have hdec : decRefIfPositive r = ⟨r.refcount - 1, h.addr_, r.is_array, r.array_size⟩ := by
    have hne : r.refcount ≠ 0 := by omega
    unfold decRefIfPositive
    rw [if_pos hne]
    unfold decRef
    rw [decr_of_pos h1 hmax, hra]
  have hmem1 : decRefIfPositive r ∈ modifyAt decRefIfPositive t p :=
    (mem_modifyAt_nodup hnd hp _).mpr (Or.inr ⟨r, hrt, hra, rfl⟩)
  have hd : pointer.dtor t h = collect (modifyAt decRefIfPositive t p) := by
    simp only [pointer.dtor, hp]
  rw [hcol] at hd
  refine ⟨_, hd, ?_, ?_, ?_, ?_⟩
  · exact List.Nodup.sublist (List.Sublist.map _ (List.filter_sublist _)) hnd1
  · intro hone x hx hxa
    have hm := (mem_filter_live _ x).mp hx
    refine hm.2 (decRefIfPositive r) hmem1 ?_ ?_
    · rw [hdec, hone]
    · rw [hdec, hxa]
  · intro hgt
    have hin : decRefIfPositive r ∈
        (modifyAt decRefIfPositive t p).filter
          (fun x => !deadAddr (modifyAt decRefIfPositive t p) x.mem_ptr) := by
      refine (mem_filter_live _ _).mpr ⟨hmem1, ?_⟩
      intro z hz hz0 hza
      have hzeq : z = decRefIfPositive r := eq_of_mem_ptr_eq hnd1 hz hmem1 hza
      rw [hzeq, hdec] at hz0
      simp only at hz0
      omega
    have hnd2 : (((modifyAt decRefIfPositive t p).filter
        (fun x => !deadAddr (modifyAt decRefIfPositive t p) x.mem_ptr)).map
          (·.mem_ptr)).Nodup :=
      List.Nodup.sublist (List.Sublist.map _ (List.filter_sublist _)) hnd1
    have := recordOf_of_mem hnd2 hin
    rw [hdec] at this
    exact this
  · intro x hx h0
    have hm := (mem_filter_live _ x).mp hx
    exact hm.2 x hm.1 h0 rfl

theorem dtorTimes_spec (h : pointer) : ∀ (m : Nat) (t : List ptr_details) (r : ptr_details),
    (t.map (·.mem_ptr)).Nodup → recordOf t h.addr_ = some r → r.refcount = m + 1 →
    r.refcount < UINT_MOD →
    ∃ t1, dtorTimes (m + 1) t h = some t1 ∧ ∀ x ∈ t1, x.mem_ptr ≠ h.addr_ := by
  intro m
  induction m with
  | zero =>
    intro t r hnd hr hm hmax
    obtain ⟨st, hd, _, hgone, _, _⟩ := dtor_spec hnd hr (by omega) hmax
    exact ⟨st.ref_container_, by simp only [dtorTimes, hd], hgone (by omega)⟩
  | succ m ih =>
    intro t r hnd hr hm hmax
    obtain ⟨st, hd, hnd1, _, hrec, _⟩ := dtor_spec hnd hr (by omega) hmax
    obtain ⟨t1, ht1, hgone⟩ := ih st.ref_container_ _ hnd1 (hrec (by omega))
      (by simp only; omega) (by simp only; omega)
    refine ⟨t1, ?_, hgone⟩
    rw [dtorTimes, hd]
    exact ht1

theorem collect_no_zero {t : List ptr_details} {st : CollectState}
    (h : collect t = some st) : ∀ x ∈ st.ref_container_, x.refcount ≠ 0 := by
  obtain ⟨l, n, hcol, _, _⟩ := collect_spec t
  rw [hcol] at h
  simp only [Option.some.injEq] at h
  rw [← h]
  intro x hx h0
  have hm := (mem_filter_live t x).mp hx
  exact hm.2 x hm.1 h0 rfl

theorem dtor_no_zero {t : List ptr_details} {h : pointer} {st : CollectState}
    (hd : pointer.dtor t h = some st) : ∀ x ∈ st.ref_container_, x.refcount ≠ 0 := by
  unfold pointer.dtor at hd
  cases hf : find_ptr_info t h.addr_ with
  | none => rw [hf] at hd; cases hd
  | some p =>
    rw [hf] at hd
    exact collect_no_zero hd

theorem step_destruct_no_zero (Size : Int) {s s1 : GcState} {i : Nat}
    (hstep : step Size s (.destruct i) = some s1) :
    ∀ x ∈ s1.ref_container_, x.refcount ≠ 0 := by
  simp only [step] at hstep
  cases hl : liveAt s.handles i with
  | none => rw [hl] at hstep; cases hstep
  | some h =>
    rw [hl] at hstep
    simp only at hstep
    cases hd : pointer.dtor s.ref_container_ h with
    | none => rw [hd] at hstep; cases hstep
    | some st =>
      rw [hd] at hstep
      simp only [Option.some.injEq] at hstep
      rw [← hstep]
      exact dtor_no_zero hd

/-- C9: for every table with at most one record per address and every handle
whose address is tracked with a refcount `n` from 1 to `2 ^ 32 - 1`, the
destructor returns; the table it leaves has no record for the address when
`n = 1` and has the record with refcount `n - 1`, its other fields unchanged,
when `n > 1`; after `n` destructions of handles storing the address the record
is gone; in every state that meets the accounting invariant, a destruction that
leaves no live handle on an address leaves no record for it; and after any
destructor call no record has refcount zero. -/
theorem dtor_effect (t : List ptr_details) (h : pointer) (n : Nat)
    (hnd : (t.map (·.mem_ptr)).Nodup) (hn : refcountOf t h.addr_ = some n)
    (h1 : 1 ≤ n) (hmax : n < 4294967296) :
    (∃ st, pointer.dtor t h = some st ∧
      (n = 1 → ∀ x ∈ st.ref_container_, x.mem_ptr ≠ h.addr_) ∧
      (1 < n → ∃ r, recordOf t h.addr_ = some r ∧
        recordOf st.ref_container_ h.addr_ =
          some ⟨n - 1, h.addr_, r.is_array, r.array_size⟩)) ∧
    (∃ t1, dtorTimes n t h = some t1 ∧ ∀ x ∈ t1, x.mem_ptr ≠ h.addr_) ∧
    (∀ (Size : Int) (s s1 : GcState) (i a : Nat), StateInv s →
      countsFit s.handles = true → step Size s (.destruct i) = some s1 →
      liveCount s1.handles a = 0 → ∀ x ∈ s1.ref_container_, x.mem_ptr ≠ a) ∧
    (∀ (t2 : List ptr_details) (h2 : pointer) (st2 : CollectState),
      pointer.dtor t2 h2 = some st2 → ∀ x ∈ st2.ref_container_, x.refcount ≠ 0) := by
  obtain ⟨r, hr, hrn⟩ : ∃ r, recordOf t h.addr_ = some r ∧ r.refcount = n := by
    unfold refcountOf at hn
    cases hrec : recordOf t h.addr_ with
    | none => rw [hrec] at hn; cases hn
    | some r =>
      rw [hrec] at hn
      simp only [Option.map_some', Option.some.injEq] at hn
      exact ⟨r, rfl, hn⟩
  have hmax1 : r.refcount < UINT_MOD := by rw [hrn]; exact hmax
  obtain ⟨st, hd, _, hone, hmore, _⟩ := dtor_spec hnd hr (by omega) hmax1
  refine ⟨⟨st, hd, ?_, ?_⟩, ?_, ?_, ?_⟩
  · intro h1n
    exact hone (by omega)
  · intro hgt
    refine ⟨r, hr, ?_⟩
    rw [← hrn]
    exact hmore (by omega)
  · obtain ⟨m, hm⟩ : ∃ m, n = m + 1 := ⟨n - 1, by omega⟩
    rw [hm]
    exact dtorTimes_spec h m t r hnd hr (by omega) hmax1
  · intro Size s s1 i a hinv hfit hstep hzero x hx hxa
    have hinv1 := step_destruct_inv Size i hinv hfit hstep
    have hcnt := hinv1.2.1 x hx
    rw [hxa, hzero] at hcnt
    exact step_destruct_no_zero Size hstep x hx hcnt
  · intro t2 h2 st2 hd2
    exact dtor_no_zero hd2

/-- C9 on a table in which two handles share address 11. -/
theorem dtor_effect_witness :
    (∃ st, pointer.dtor [⟨2, 11, false, 0⟩, ⟨1, 12, false, 0⟩] ⟨11, false, 0⟩ = some st ∧
      ∃ r, recordOf [⟨2, 11, false, 0⟩, ⟨1, 12, false, 0⟩] 11 = some r ∧
        recordOf st.ref_container_ 11 = some ⟨1, 11, r.is_array, r.array_size⟩) ∧
    (∃ t1, dtorTimes 2 [⟨2, 11, false, 0⟩, ⟨1, 12, false, 0⟩] ⟨11, false, 0⟩ = some t1 ∧
      ∀ x ∈ t1, x.mem_ptr ≠ 11) := by
  obtain ⟨⟨st, hd, _, hmore⟩, htimes, _⟩ :=
    dtor_effect [⟨2, 11, false, 0⟩, ⟨1, 12, false, 0⟩] ⟨11, false, 0⟩ 2
      (by decide) (by decide) (by decide) (by decide)
  exact ⟨⟨st, hd, hmore (by decide)⟩, htimes⟩

/-! ## Scenario A: one handle reassigned to fresh addresses -/

theorem getLastD_mem_cons : ∀ (xs : List Nat) (x : Nat), xs.getLastD x ∈ x :: xs := by
  intro xs
  induction xs with
  | nil => intro x; exact List.mem_cons_self _ _
  | cons y ys ih =>
    intro x
    rw [List.getLastD_cons]
    exact List.mem_cons_of_mem _ (ih y)

theorem dropLast_cons_cons (a x : Nat) (xs : List Nat) :
    (a :: x :: xs).dropLast = a :: (x :: xs).dropLast := rfl

theorem getLastD_not_mem_dropLast : ∀ (xs : List Nat) (a : Nat), (a :: xs).Nodup →
    xs.getLastD a ∉ (a :: xs).dropLast := by
  intro xs
  induction xs with
  | nil => intro a _; simp
  | cons x xs ih =>
    intro a hnd
    rw [List.getLastD_cons, dropLast_cons_cons]
    rw [List.nodup_cons] at hnd
    intro hin
    rcases List.mem_cons.mp hin with h | h
    · exact hnd.1 (h ▸ getLastD_mem_cons xs x)
    · exact ih x hnd.2 h

/-- One reassignment of the only handle to an address that is not tracked: the
old record drops to refcount 0 and stays, the new record goes in front. -/
theorem step_assignRaw_fresh (Size : Int) (cur x : Nat) (f fh : Bool) (z zh : Nat)
    (stale : List ptr_details) (hx : x ≠ cur) (hstale : ∀ r ∈ stale, r.mem_ptr ≠ x) :
    step Size ⟨⟨1, cur, f, z⟩ :: stale, [some ⟨cur, fh, zh⟩]⟩ (.assignRaw 0 x) =
      some ⟨ptr_details.ctor x (toUnsigned Size) :: ⟨0, cur, f, z⟩ :: stale,
        [some ⟨x, fh, zh⟩]⟩ := by
  have hfind : find_ptr_info (⟨1, cur, f, z⟩ :: stale) cur = some 0 := by
    simp only [find_ptr_info, if_true]
  have hdec : decRef ⟨1, cur, f, z⟩ = ⟨0, cur, f, z⟩ := by
    unfold decRef
    have : decr 1 = 0 := by decide
    simp only [this]
  have hnone : find_ptr_info (⟨0, cur, f, z⟩ :: stale) x = none := by
    rw [find_ptr_info_none]
    intro r hr
    rcases List.mem_cons.mp hr with rfl | hr
    · exact fun e => hx e.symm
    · exact hstale r hr
  have hl : liveAt [some (⟨cur, fh, zh⟩ : pointer)] 0 = some ⟨cur, fh, zh⟩ := rfl
  simp only [step, hl, pointer.assignRaw, hfind, modifyAt, hdec, hnone, List.set_cons_zero]

theorem run_assign_chain (Size : Int) (fh : Bool) (zh : Nat) :
    ∀ (xs : List Nat) (cur : Nat) (stale : List ptr_details), (cur :: xs).Nodup →
    (∀ x ∈ xs, ∀ r ∈ stale, r.mem_ptr ≠ x) →
    run Size ⟨⟨1, cur, decide (toUnsigned Size ≠ 0), toUnsigned Size⟩ :: stale,
        [some ⟨cur, fh, zh⟩]⟩ (xs.map (Op.assignRaw 0)) =
      some ⟨⟨1, xs.getLastD cur, decide (toUnsigned Size ≠ 0), toUnsigned Size⟩ ::
          ((cur :: xs).dropLast.reverse.map
            (fun x => (⟨0, x, decide (toUnsigned Size ≠ 0), toUnsigned Size⟩ : ptr_details))
            ++ stale),
        [some ⟨xs.getLastD cur, fh, zh⟩]⟩ := by
  intro xs
  induction xs with
  | nil =>
    intro cur stale _ _
    simp [run]
  | cons x xs ih =>
    intro cur stale hnd hstale
    rw [List.nodup_cons] at hnd
    have hxcur : x ≠ cur := by
      intro e
      exact hnd.1 (e ▸ List.mem_cons_self _ _)
    have hstep := step_assignRaw_fresh Size cur x (decide (toUnsigned Size ≠ 0)) fh
      (toUnsigned Size) zh stale hxcur (hstale x (List.mem_cons_self _ _))
    rw [ptr_details_ctor_eq] at hstep
    rw [List.map_cons, run_cons_of_step hstep]
    rw [ih x _ hnd.2 (by
      intro y hy r hr
      rcases List.mem_cons.mp hr with rfl | hr
      · intro e
        have e1 : cur = y := e
        rw [e1] at hnd
        exact hnd.1 (List.mem_cons_of_mem _ hy)
      · exact hstale y (List.mem_cons_of_mem _ hy) r hr)]
    rw [List.getLastD_cons, dropLast_cons_cons, List.reverse_cons, List.map_append,
      List.append_assoc]
    rfl

/-- The sweep of a table whose first record is referenced and whose other records
all have refcount 0 and other addresses keeps the first record only. -/
theorem sweep_keeps_head (x : ptr_details) (zs : List ptr_details) (hx : x.refcount ≠ 0)
    (hz0 : ∀ z ∈ zs, z.refcount = 0) (hza : ∀ z ∈ zs, z.mem_ptr ≠ x.mem_ptr) :
    (x :: zs).filter (fun r => !deadAddr (x :: zs) r.mem_ptr) = [x] := by
  have hxlive : deadAddr (x :: zs) x.mem_ptr = false := by
    cases hd : deadAddr (x :: zs) x.mem_ptr
    · rfl
    · rcases (deadAddr_iff _ _).mp hd with ⟨z, hz, hz0z, hzx⟩
      rcases List.mem_cons.mp hz with rfl | hz
      · exact absurd hz0z hx
      · exact absurd hzx (hza z hz)
  rw [List.filter_cons, hxlive]
  simp only [Bool.not_false, if_true, List.cons.injEq, true_and]
  rw [List.filter_eq_nil_iff]
  intro z hz
  have : deadAddr (x :: zs) z.mem_ptr = true :=
    (deadAddr_iff _ _).mpr ⟨z, List.mem_cons_of_mem _ hz, hz0 z hz, rfl⟩
  simp [this]

/-- C10: for every `Size` and every list `a0 :: rest` of pairwise distinct
addresses (`k` the length of `rest`), constructing a handle over `a0` from the
empty table and assigning it the addresses of `rest` in turn returns a state
whose only handle stores the last address and whose table has `k + 1` records:
the last address with refcount 1 in front, then the `k` earlier addresses, latest
first, with refcount 0.  `collect` on that table returns, removes exactly the
records of the `k` earlier addresses, leaves the single record of the last
address with refcount 1, and reports `mem_freed` exactly when `k > 0`. -/
theorem scenario_A (Size : Int) (a0 : Nat) (rest : List Nat) (hnd : (a0 :: rest).Nodup) :
    ∃ s st,
      run Size GcState.init (Op.construct a0 :: rest.map (Op.assignRaw 0)) = some s ∧
      s.handles = [some ⟨rest.getLastD a0, decide (toUnsigned Size > 0), toUnsigned Size⟩] ∧
      s.ref_container_ =
        ⟨1, rest.getLastD a0, decide (toUnsigned Size ≠ 0), toUnsigned Size⟩ ::
          (a0 :: rest).dropLast.reverse.map
            (fun x => (⟨0, x, decide (toUnsigned Size ≠ 0), toUnsigned Size⟩ : ptr_details)) ∧
      s.ref_container_.length = rest.length + 1 ∧
      collect s.ref_container_ = some st ∧
      st.ref_container_ =
        [⟨1, rest.getLastD a0, decide (toUnsigned Size ≠ 0), toUnsigned Size⟩] ∧
      (∀ r ∈ s.ref_container_, r ∉ st.ref_container_ ↔ r.mem_ptr ∈ (a0 :: rest).dropLast) ∧
      (st.mem_freed = true ↔ 0 < rest.length) := by
  have hstep : step Size GcState.init (Op.construct a0) =
      some ⟨[⟨1, a0, decide (toUnsigned Size ≠ 0), toUnsigned Size⟩],
        [some ⟨a0, decide (toUnsigned Size > 0), toUnsigned Size⟩]⟩ := by
    simp only [step, GcState.init, pointer.ctor, find_ptr_info, ptr_details_ctor_eq,
      List.nil_append]
  have hchain := run_assign_chain Size (decide (toUnsigned Size > 0)) (toUnsigned Size)
    rest a0 [] hnd (by intro x _ r hr; cases hr)
  rw [List.append_nil] at hchain
  have hlast := getLastD_not_mem_dropLast rest a0 hnd
  have hz0 : ∀ z ∈ (a0 :: rest).dropLast.reverse.map
      (fun x => (⟨0, x, decide (toUnsigned Size ≠ 0), toUnsigned Size⟩ : ptr_details)),
      z.refcount = 0 ∧ z.mem_ptr ∈ (a0 :: rest).dropLast := by
    intro z hz
    rcases List.mem_map.mp hz with ⟨x, hx, rfl⟩
    exact ⟨rfl, List.mem_reverse.mp hx⟩
  have hsweep := sweep_keeps_head
    ⟨1, rest.getLastD a0, decide (toUnsigned Size ≠ 0), toUnsigned Size⟩ _ (by simp)
    (fun z hz => (hz0 z hz).1)
    (fun z hz e => hlast (by
      have := (hz0 z hz).2
      rw [e] at this
      exact this))
  obtain ⟨l, n, hcol, _, _⟩ := collect_spec
    (⟨1, rest.getLastD a0, decide (toUnsigned Size ≠ 0), toUnsigned Size⟩ ::
      (a0 :: rest).dropLast.reverse.map
        (fun x => (⟨0, x, decide (toUnsigned Size ≠ 0), toUnsigned Size⟩ : ptr_details)))
  rw [hsweep] at hcol
  refine ⟨_, _, by rw [run_cons_of_step hstep]; exact hchain, rfl, rfl, ?_, hcol, rfl, ?_, ?_⟩
  · simp
  · intro r hr
    simp only [List.mem_singleton]
    rcases List.mem_cons.mp hr with rfl | hr
    · constructor
      · intro h; exact absurd rfl h
      · intro h; exact absurd h hlast
    · constructor
      · intro _; exact (hz0 r hr).2
      · intro _ e
        have := (hz0 r hr).1
        rw [e] at this
        cases this
  · simp only [List.any_cons, List.any_map, List.any_reverse]
    cases rest with
    | nil => simp
    | cons x xs => simp [dropLast_cons_cons]

/-- C10 at `k = 3`, the scenario of `main`: `p = new int(1)`, then three
reassignments, then `collect`. -/
theorem scenario_A_witness :
    ∃ s st,
      run 0 GcState.init
        [.construct 11, .assignRaw 0 12, .assignRaw 0 13, .assignRaw 0 14] = some s ∧
      s.ref_container_ =
        [⟨1, 14, false, 0⟩, ⟨0, 13, false, 0⟩, ⟨0, 12, false, 0⟩, ⟨0, 11, false, 0⟩] ∧
      collect s.ref_container_ = some st ∧
      st.ref_container_ = [⟨1, 14, false, 0⟩] ∧
      st.mem_freed = true := by
  obtain ⟨s, st, hrun, _, htab, _, hcol, hst, _, hfreed⟩ :=
    scenario_A 0 11 [12, 13, 14] (by decide)
  exact ⟨s, st, hrun, htab, hcol, hst, hfreed.mpr (by decide)⟩

/-! ## Shutdown -/

theorem sweep_all_zero {t : List ptr_details} (h : ∀ r ∈ t, r.refcount = 0) :
    t.filter (fun r => !deadAddr t r.mem_ptr) = [] := by
  rw [List.filter_eq_nil_iff]
  intro r hr
  have : deadAddr t r.mem_ptr = true := (deadAddr_iff t _).mpr ⟨r, hr, h r hr, rfl⟩
  simp [this]

/-- C11: for every table, whatever the refcounts of its records, `shutdown`
returns and leaves the table empty; on an empty table it returns at once, with
no scan, no release and `collect` not called. -/
theorem shutdown_empties (t : List ptr_details) :
    ∃ st, shutdown t = some st ∧ st.ref_container_ = [] ∧
      (t = [] → st = ⟨[], false, [], 0⟩) := by
  by_cases h0 : t.length = 0
  · have ht : t = [] := List.length_eq_zero.mp h0
    refine ⟨⟨t, false, [], 0⟩, by simp only [shutdown, h0, if_true], ht, ?_⟩
    intro _
    rw [ht]
  · obtain ⟨l, n, hcol, _, _⟩ := collect_spec (t.map zeroRef)
    have hz : ∀ r ∈ t.map zeroRef, r.refcount = 0 := by
      intro r hr
      rcases List.mem_map.mp hr with ⟨x, _, rfl⟩
      rfl
    rw [sweep_all_zero hz] at hcol
    refine ⟨_, by simp only [shutdown, h0, if_false]; exact hcol, rfl, ?_⟩
    intro ht
    rw [ht] at h0
    exact absurd rfl h0

/-! ## The sweep as a filter, and its termination -/

theorem filter_live_eq_singlePassFilter {t : List ptr_details}
    (hnd : (t.map (·.mem_ptr)).Nodup) :
    t.filter (fun r => !deadAddr t r.mem_ptr) = singlePassFilter t := by
  unfold singlePassFilter
  apply List.filter_congr
  intro r hr
  by_cases h0 : r.refcount = 0
  · have : deadAddr t r.mem_ptr = true := (deadAddr_iff t _).mpr ⟨r, hr, h0, rfl⟩
    simp [this, h0]
  · have : deadAddr t r.mem_ptr = false := by
      cases hd : deadAddr t r.mem_ptr
      · rfl
      · rcases (deadAddr_iff t _).mp hd with ⟨z, hz, hz0, hza⟩
        have hzr : z = r := eq_of_mem_ptr_eq hnd hz hr hza
        rw [hzr] at hz0
        exact absurd hz0 h0
    have hpos : 0 < r.refcount := Nat.pos_of_ne_zero h0
    simp [this, hpos]

/-- C16: for every table with at most one record per address, `collect` returns
and the table it leaves is the sub-list of the records whose refcount was greater
than zero on entry, in their order and with their fields unchanged: the
restarting sweep equals the filter in one pass. -/
theorem collect_eq_singlePassFilter (t : List ptr_details)
    (hnd : (t.map (·.mem_ptr)).Nodup) :
    ∃ st, collect t = some st ∧ st.ref_container_ = singlePassFilter t ∧
      st.ref_container_.Sublist t ∧
      (∀ r, r ∈ st.ref_container_ ↔ r ∈ t ∧ 0 < r.refcount) := by
  obtain ⟨l, n, hcol, _, _⟩ := collect_spec t
  rw [filter_live_eq_singlePassFilter hnd] at hcol
  refine ⟨_, hcol, rfl, ?_, ?_⟩
  · exact List.filter_sublist t
  · intro r
    simp [singlePassFilter, List.mem_filter]

/-- C16 on a table with two stale records around a referenced one. -/
theorem collect_eq_singlePassFilter_witness :
    ∃ st, collect [⟨0, 13, false, 0⟩, ⟨2, 12, false, 0⟩, ⟨0, 11, false, 0⟩] = some st ∧
      st.ref_container_ = [⟨2, 12, false, 0⟩] := by
  obtain ⟨st, hcol, hst, _⟩ := collect_eq_singlePassFilter
    [⟨0, 13, false, 0⟩, ⟨2, 12, false, 0⟩, ⟨0, 11, false, 0⟩] (by decide)
  exact ⟨st, hcol, by rw [hst]; decide⟩

/-- The hypothesis of one record per address is needed: when a stale record and a
referenced record share an address, `remove(*p)` erases both. -/
theorem collect_ne_singlePassFilter_of_shared_address :
    collect [⟨0, 5, false, 0⟩, ⟨3, 5, false, 0⟩] = some ⟨[], true, [⟨5, false⟩], 2⟩ ∧
    singlePassFilter [⟨0, 5, false, 0⟩, ⟨3, 5, false, 0⟩] = [⟨3, 5, false, 0⟩] := by
  decide

theorem collectLoop_fuel_succ : ∀ (fuel : Nat) (st r : CollectState),
    collectLoop fuel st = some r → collectLoop (fuel + 1) st = some r := by
  intro fuel
  induction fuel with
  | zero => intro st r h; simp [collectLoop] at h
  | succ fuel ih =>
    intro st r h
    rw [collectLoop] at h ⊢
    cases hscan : scanUnreferenced st.ref_container_ with
    | none => rw [hscan] at h; exact h
    | some p =>
      rw [hscan] at h
      exact ih _ _ h

theorem collectLoop_fuel_le {fuel fuel1 : Nat} (hle : fuel ≤ fuel1) {st r : CollectState}
    (h : collectLoop fuel st = some r) : collectLoop fuel1 st = some r := by
  induction hle with
  | refl => exact h
  | step _ ih => exact collectLoop_fuel_succ _ _ _ ih

/-- C17: for every table, `collect` terminates: the loop ends with the same
result under every bound on the number of scans that exceeds the number of
records; it makes at least one scan and at most one more than there are records;
every scan but the last removes at least one record; the last scan finds no
refcount-zero record; and a scan that stops on a record is followed by a removal
that leaves strictly fewer records. -/
theorem collect_terminates (t : List ptr_details) :
    ∃ st, collect t = some st ∧
      (∀ fuel, t.length < fuel → collectLoop fuel ⟨t, false, [], 0⟩ = some st) ∧
      1 ≤ st.scans ∧ st.scans ≤ t.length + 1 ∧
      (st.scans - 1) + st.ref_container_.length ≤ t.length ∧
      scanUnreferenced st.ref_container_ = none ∧
      (∀ (u : List ptr_details) (p : ptr_details), scanUnreferenced u = some p →
        (list_remove u p).length < u.length) := by
  obtain ⟨l, n, hcol, _, hn⟩ := collect_spec t
  refine ⟨_, hcol, ?_, ?_, ?_, ?_, ?_, ?_⟩
  · intro fuel hf
    exact collectLoop_fuel_le (by omega) hcol
  · simp only
    omega
  · simp only
    omega
  · simp only
    omega
  · rw [scanUnreferenced_none]
    intro r hr h0
    have hm := (mem_filter_live t r).mp hr
    exact hm.2 r hm.1 h0 rfl
  · intro u p hp
    exact list_remove_length_lt (scanUnreferenced_some hp).1

/-! ## Assignment leaves every record in place -/

theorem tracked_iff_find (t : List ptr_details) (a : Nat) :
    (∃ q, find_ptr_info t a = some q) ↔ a ∈ t.map (·.mem_ptr) := by
  constructor
  · rintro ⟨q, hq⟩
    obtain ⟨r, _, hra, hr⟩ := find_ptr_info_some hq
    exact List.mem_map.mpr ⟨r, hr, hra⟩
  · intro h
    rcases List.mem_map.mp h with ⟨r, hr, hra⟩
    rw [← hra]
    exact find_ptr_info_isSome hr

/-- C18: for every table, every handle whose address is tracked and every raw
address `new`, `operator=(T*)` returns without removing a record: every address
tracked before is tracked afterwards, the old address of the handle included
whatever its refcount has become; when `new` was tracked the records keep their
number and their addresses; when it was not, exactly one record, of address
`new`, is added in front. -/
theorem assignRaw_no_collection (Size : Int) (t : List ptr_details) (h : pointer)
    (new p : Nat) (htr : find_ptr_info t h.addr_ = some p) :
    ∃ t1 h1, pointer.assignRaw Size t h new = some (t1, h1) ∧
      (∀ a, (∃ q, find_ptr_info t a = some q) → ∃ q1, find_ptr_info t1 a = some q1) ∧
      (∃ q1, find_ptr_info t1 h.addr_ = some q1) ∧
      ((∃ q, find_ptr_info t new = some q) →
        t1.length = t.length ∧ t1.map (·.mem_ptr) = t.map (·.mem_ptr)) ∧
      (find_ptr_info t new = none →
        t1.length = t.length + 1 ∧ t1.map (·.mem_ptr) = new :: t.map (·.mem_ptr)) := by
  have hmap : ∀ q, (modifyAt incRef (modifyAt decRef t p) q).map (·.mem_ptr)
      = t.map (·.mem_ptr) := by
    intro q
    rw [map_mem_ptr_modifyAt incRef_mem_ptr, map_mem_ptr_modifyAt decRef_mem_ptr]
  have hmap1 : (ptr_details.ctor new (toUnsigned Size) :: modifyAt decRef t p).map (·.mem_ptr)
      = new :: t.map (·.mem_ptr) := by
    rw [List.map_cons, ptr_details_ctor_mem_ptr, map_mem_ptr_modifyAt decRef_mem_ptr]
  have hkeep : ∀ a, (∃ q, find_ptr_info t a = some q) →
      ∃ q1, find_ptr_info (match find_ptr_info t new with
        | some q => modifyAt incRef (modifyAt decRef t p) q
        | none => ptr_details.ctor new (toUnsigned Size) :: modifyAt decRef t p) a
        = some q1 := by
    intro a ha
    rw [tracked_iff_find] at ha ⊢
    cases hq : find_ptr_info t new with
    | some q =>
      simp only
      rw [hmap q]
      exact ha
    | none =>
      simp only
      rw [hmap1]
      exact List.mem_cons_of_mem _ ha
  refine ⟨_, _, assignRaw_eq Size new htr, hkeep, hkeep h.addr_ ⟨p, htr⟩, ?_, ?_⟩
  · rintro ⟨q, hq⟩
    simp only [hq]
    exact ⟨by rw [length_modifyAt, length_modifyAt], hmap q⟩
  · intro hq
    simp only [hq]
    exact ⟨by rw [List.length_cons, length_modifyAt], hmap1⟩

/-- C18 on the table left by `p = new int(1)`: after `p = new int(2)` the record of
the first allocation is still in the table, with refcount 0. -/
theorem assignRaw_no_collection_witness :
    ∃ t1 h1, pointer.assignRaw 0 [⟨1, 11, false, 0⟩] ⟨11, false, 0⟩ 12 = some (t1, h1) ∧
      (∃ q1, find_ptr_info t1 11 = some q1) ∧ t1.length = 2 ∧
      t1 = [⟨1, 12, false, 0⟩, ⟨0, 11, false, 0⟩] := by
  obtain ⟨t1, h1, hrun, _, hold, _, hnew⟩ :=
    assignRaw_no_collection 0 [⟨1, 11, false, 0⟩] ⟨11, false, 0⟩ 12 0 (by decide)
  refine ⟨t1, h1, hrun, hold, (hnew (by decide)).1, ?_⟩
  have hval : pointer.assignRaw 0 [⟨1, 11, false, 0⟩] ⟨11, false, 0⟩ 12 =
      some ([⟨1, 12, false, 0⟩, ⟨0, 11, false, 0⟩], ⟨12, false, 0⟩) := by decide
  rw [hval] at hrun
  simp only [Option.some.injEq, Prod.mk.injEq] at hrun
  exact hrun.1.symm

theorem liveAt_set_self {hs : List (Option pointer)} {i : Nat} (o : Option pointer)
    (hi : i < hs.length) : liveAt (hs.set i o) i = o := by
  unfold liveAt
  rw [List.getElem?_set_self hi]

theorem liveAt_set_ne {hs : List (Option pointer)} {i j : Nat} (o : Option pointer)
    (hij : i ≠ j) : liveAt (hs.set i o) j = liveAt hs j := by
  unfold liveAt
  rw [List.getElem?_set_ne hij]

/-- C19: for every state and every pair of live handles `h` (slot `i`) and
`other` (slot `j`, possibly the same slot) whose addresses are tracked,
`operator=(pointer&)` returns; afterwards the handle in slot `i` stores the
address of `other` and has the cached flag and length `h` had; slot `j` still
holds `other`; every other slot is unchanged; and the table has the same number
of records, with the same addresses. -/
theorem assign_effect (Size : Int) (s : GcState) (i j p q : Nat) (h other : pointer)
    (hi : liveAt s.handles i = some h) (hj : liveAt s.handles j = some other)
    (hp : find_ptr_info s.ref_container_ h.addr_ = some p)
    (hq : find_ptr_info s.ref_container_ other.addr_ = some q) :
    ∃ s1 h1, step Size s (.assign i j) = some s1 ∧
      liveAt s1.handles i = some h1 ∧
      h1.addr_ = other.addr_ ∧ h1.is_array_ = h.is_array_ ∧
      h1.array_size_ = h.array_size_ ∧
      liveAt s1.handles j = some other ∧
      (∀ k, k ≠ i → s1.handles[k]? = s.handles[k]?) ∧
      s1.handles.length = s.handles.length ∧
      s1.ref_container_.length = s.ref_container_.length ∧
      s1.ref_container_.map (·.mem_ptr) = s.ref_container_.map (·.mem_ptr) := by
  have hq1 : find_ptr_info (modifyAt decRef s.ref_container_ p) other.addr_ = some q := by
    rw [find_ptr_info_modifyAt decRef_mem_ptr]; exact hq
  have hstep : step Size s (.assign i j) =
      some ⟨modifyAt incRef (modifyAt decRef s.ref_container_ p) q,
        s.handles.set i (some ⟨other.addr_, h.is_array_, h.array_size_⟩)⟩ := by
    simp only [step, hi, hj, pointer.assign, hp, hq1]
  refine ⟨_, ⟨other.addr_, h.is_array_, h.array_size_⟩, hstep,
    liveAt_set_self _ (liveAt_lt hi), rfl, rfl, rfl, ?_, ?_, ?_, ?_, ?_⟩
  · by_cases hij : i = j
    · subst hij
      rw [hi] at hj
      simp only [Option.some.injEq] at hj
      rw [liveAt_set_self _ (liveAt_lt hi), hj]
    · rw [liveAt_set_ne _ hij]
      exact hj
  · intro k hk
    exact List.getElem?_set_ne (fun e => hk e.symm)
  · exact List.length_set _ _ _
  · show (modifyAt incRef (modifyAt decRef s.ref_container_ p) q).length = _
    rw [length_modifyAt, length_modifyAt]
  · show (modifyAt incRef (modifyAt decRef s.ref_container_ p) q).map (·.mem_ptr) = _
    rw [map_mem_ptr_modifyAt incRef_mem_ptr, map_mem_ptr_modifyAt decRef_mem_ptr]

/-- C19 on two handles of the class with `Size = 10`, the first over address 7,
the second built over address 9. -/
theorem assign_effect_witness :
    ∃ s1 h1,
      step 10 ⟨[⟨1, 9, true, 10⟩, ⟨1, 7, true, 10⟩],
        [some ⟨7, true, 10⟩, some ⟨9, true, 10⟩]⟩ (.assign 0 1) = some s1 ∧
      liveAt s1.handles 0 = some h1 ∧ h1.addr_ = 9 ∧ h1.is_array_ = true ∧
      h1.array_size_ = 10 ∧ liveAt s1.handles 1 = some ⟨9, true, 10⟩ ∧
      s1.ref_container_.length = 2 := by
  obtain ⟨s1, h1, hstep, hl, ha, hf, hz, hother, _, _, hlen, _⟩ :=
    assign_effect 10 ⟨[⟨1, 9, true, 10⟩, ⟨1, 7, true, 10⟩],
      [some ⟨7, true, 10⟩, some ⟨9, true, 10⟩]⟩ 0 1 1 0 ⟨7, true, 10⟩ ⟨9, true, 10⟩
      (by decide) (by decide) (by decide) (by decide)
  exact ⟨s1, h1, hstep, hl, ha, hf, hz, hother, hlen⟩

/-! ## Default construction -/

theorem modifyAt_modifyAt_cancel {f g : ptr_details → ptr_details} :
    ∀ (t : List ptr_details) (p : Nat) (r : ptr_details), t[p]? = some r → g (f r) = r →
    modifyAt g (modifyAt f t p) p = t := by
  intro t
  induction t with
  | nil => intro p r h; simp at h
  | cons x xs ih =>
    intro p r h hgf
    cases p with
    | zero =>
      simp only [List.getElem?_cons_zero, Option.some.injEq] at h
      subst h
      simp only [modifyAt, hgf]
    | succ p =>
      simp only [List.getElem?_cons_succ] at h
      simp only [modifyAt, ih p r h hgf]

theorem decRefIfPositive_incRef {r : ptr_details} (h : r.refcount + 1 < UINT_MOD) :
    decRefIfPositive (incRef r) = r := by
  have h1 : (incRef r).refcount = r.refcount + 1 := by
    unfold incRef
    exact incr_of_lt h
  have hne : (incRef r).refcount ≠ 0 := by omega
  unfold decRefIfPositive
  rw [if_pos hne]
  unfold decRef
  rw [h1, decr_of_pos (by omega) h]
  cases r
  rfl

theorem list_remove_head_fresh (x : ptr_details) (t : List ptr_details)
    (h : ∀ r ∈ t, r.mem_ptr ≠ x.mem_ptr) : list_remove (x :: t) x = t := by
  unfold list_remove
  rw [List.filter_cons]
  simp only [bne_self_eq_false, Bool.false_eq_true, if_false]
  rw [List.filter_eq_self]
  intro r hr
  simpa using h r hr

/-- The table left by the default constructor is the table left by `collect`,
unless the null address is tracked with refcount `2 ^ 32 - 1`. -/
theorem default_ctor_spec (Size : Int) (t : List ptr_details)
    (hfit : ∀ r, recordOf t 0 = some r → r.refcount + 1 < UINT_MOD) :
    ∃ st, pointer.default_ctor Size t = some (st, ⟨0, false, 0⟩) ∧
      st.ref_container_ = t.filter (fun r => !deadAddr t r.mem_ptr) := by
  have haddr : (pointer.ctor Size t 0).2.addr_ = 0 := rfl
  cases hf : find_ptr_info t 0 with
  | none =>
    have hfresh := (find_ptr_info_none t 0).mp hf
    have htab : (pointer.ctor Size t 0).1 =
        ⟨1, 0, decide (toUnsigned Size ≠ 0), toUnsigned Size⟩ :: t := by
      rw [pointer_ctor_untracked Size hf, ptr_details_ctor_eq]
    have hdec : decRefIfPositive ⟨1, 0, decide (toUnsigned Size ≠ 0), toUnsigned Size⟩
        = ⟨0, 0, decide (toUnsigned Size ≠ 0), toUnsigned Size⟩ := by
      have h1 : decr 1 = 0 := by decide
      unfold decRefIfPositive decRef
      simp only [h1]
      rfl
    have hd : pointer.dtor (pointer.ctor Size t 0).1 (pointer.ctor Size t 0).2 =
        collect (⟨0, 0, decide (toUnsigned Size ≠ 0), toUnsigned Size⟩ :: t) := by
      rw [pointer.dtor, haddr, htab]
      simp only [find_ptr_info, if_true, modifyAt, hdec]
    obtain ⟨l, n, hcol, _, _⟩ :=
      collect_spec (⟨0, 0, decide (toUnsigned Size ≠ 0), toUnsigned Size⟩ :: t)
    have hsame := filter_live_list_remove
      (List.mem_cons_self (⟨0, 0, decide (toUnsigned Size ≠ 0), toUnsigned Size⟩ : ptr_details) t)
      rfl
    rw [list_remove_head_fresh _ t hfresh] at hsame
    rw [← hsame] at hcol
    rw [hcol] at hd
    exact ⟨_, by rw [pointer.default_ctor, hd], rfl⟩
  | some p =>
    obtain ⟨r, hr, hra, _⟩ := find_ptr_info_some hf
    have hrec : recordOf t 0 = some r := by simp only [recordOf, hf, hr]
    have htab : (pointer.ctor Size t 0).1 = modifyAt incRef t p :=
      pointer_ctor_tracked Size hf
    have hd : pointer.dtor (pointer.ctor Size t 0).1 (pointer.ctor Size t 0).2 =
        collect t := by
      rw [pointer.dtor, haddr, htab, find_ptr_info_modifyAt incRef_mem_ptr, hf]
      simp only
      rw [modifyAt_modifyAt_cancel t p r hr (decRefIfPositive_incRef (hfit r hrec))]
    obtain ⟨l, n, hcol, _, _⟩ := collect_spec t
    rw [hcol] at hd
    exact ⟨_, by rw [pointer.default_ctor, hd], rfl⟩

/-- C20, the claim as stated fails: when the null address is tracked with refcount
`2 ^ 32 - 1`, the temporary handle built by the default constructor wraps the
refcount to 0 and its destructor sweeps the record, which `collect` alone would
keep. -/
theorem default_ctor_claim_fails :
    pointer.default_ctor 0 [⟨4294967295, 0, false, 0⟩] =
      some (⟨[], true, [], 2⟩, ⟨0, false, 0⟩) ∧
    collect [⟨4294967295, 0, false, 0⟩] =
      some ⟨[⟨4294967295, 0, false, 0⟩], false, [], 1⟩ := by
  decide

/-- C20, amended: for every table in which the null address is not tracked with
refcount `2 ^ 32 - 1` (with one record per address or not), the default
constructor returns a handle with null address, flag false and length 0, and
leaves the table that `collect` would leave; that table is a sub-list of the old
one, so each of its records is a record of the old table with its refcount
unchanged and none accounts for the new handle; and from the empty table the
table is empty afterwards, with no record for the null address. -/
theorem default_ctor_effect (Size : Int) (t : List ptr_details)
    (hfit : ∀ r, recordOf t 0 = some r → r.refcount + 1 < 4294967296) :
    ∃ st st0, pointer.default_ctor Size t = some (st, ⟨0, false, 0⟩) ∧
      collect t = some st0 ∧
      st.ref_container_ = st0.ref_container_ ∧
      st.ref_container_.Sublist t ∧
      (t = [] → st.ref_container_ = [] ∧ find_ptr_info st.ref_container_ 0 = none) := by
  obtain ⟨st, hdef, htab⟩ := default_ctor_spec Size t hfit
  obtain ⟨l, n, hcol, _, _⟩ := collect_spec t
  refine ⟨st, _, hdef, hcol, htab, ?_, ?_⟩
  · rw [htab]
    exact List.filter_sublist t
  · intro ht
    rw [htab, ht]
    exact ⟨rfl, rfl⟩

/-- C20, the amended claim on the table of `main` before its `collect`: the
default constructor sweeps the three stale records, and the null address gets no
record. -/
theorem default_ctor_effect_witness :
    ∃ st st0,
      pointer.default_ctor 0
        [⟨1, 14, false, 0⟩, ⟨0, 13, false, 0⟩, ⟨0, 12, false, 0⟩, ⟨0, 11, false, 0⟩]
        = some (st, ⟨0, false, 0⟩) ∧
      collect [⟨1, 14, false, 0⟩, ⟨0, 13, false, 0⟩, ⟨0, 12, false, 0⟩, ⟨0, 11, false, 0⟩]
        = some st0 ∧
      st.ref_container_ = st0.ref_container_ ∧
      st0.ref_container_ = [⟨1, 14, false, 0⟩] := by
  obtain ⟨st, st0, hdef, hcol, hsame, _, _⟩ := default_ctor_effect 0
    [⟨1, 14, false, 0⟩, ⟨0, 13, false, 0⟩, ⟨0, 12, false, 0⟩, ⟨0, 11, false, 0⟩]
    (by intro r hr; have : recordOf
          [⟨1, 14, false, 0⟩, ⟨0, 13, false, 0⟩, ⟨0, 12, false, 0⟩, ⟨0, 11, false, 0⟩] 0
          = none := by decide
        rw [this] at hr; cases hr)
  refine ⟨st, st0, hdef, hcol, hsame, ?_⟩
  have hval : collect
      [⟨1, 14, false, 0⟩, ⟨0, 13, false, 0⟩, ⟨0, 12, false, 0⟩, ⟨0, 11, false, 0⟩]
      = some ⟨[⟨1, 14, false, 0⟩], true, [⟨13, false⟩, ⟨12, false⟩, ⟨11, false⟩], 4⟩ := by
    decide
  rw [hval] at hcol
  simp only [Option.some.injEq] at hcol
  rw [← hcol]

/-! ## The cursor -/

/-- C12: for every cursor (in particular every one with `begin_ ≤ end_`), writing
`length` for `end_ - begin_`, and every integer `i`: `operator[]` yields the
element `ptr_[i]` if and only if `0 ≤ i < length`, throws `out_of_range_exc` if
and only if not; it throws for `i = length` and for `i = -1`; and it leaves the
cursor unchanged. -/
theorem index_bounds (c : iter) (i : Int) :
    ((c.index i).1 = .ok (c.ptr_ + i) ↔ 0 ≤ i ∧ i < c.end_ - c.begin_) ∧
    ((c.index i).1 = .error .out_of_range_exc ↔ ¬ (0 ≤ i ∧ i < c.end_ - c.begin_)) ∧
    (c.index (c.end_ - c.begin_)).1 = .error .out_of_range_exc ∧
    (c.index (-1)).1 = .error .out_of_range_exc ∧
    (c.index i).2 = c := by
  refine ⟨?_, ?_, ?_, ?_, ?_⟩
  · unfold iter.index
    by_cases h : i < 0 ∨ i ≥ c.end_ - c.begin_
    · rw [if_pos h]
      constructor
      · intro e; cases e
      · intro hb; omega
    · rw [if_neg h]
      constructor
      · intro _; omega
      · intro _; rfl
  · unfold iter.index
    by_cases h : i < 0 ∨ i ≥ c.end_ - c.begin_
    · rw [if_pos h]
      constructor
      · intro _; omega
      · intro _; rfl
    · rw [if_neg h]
      constructor
      · intro e; cases e
      · intro hb; omega
  · unfold iter.index
    rw [if_pos (Or.inr (le_refl _))]
  · unfold iter.index
    rw [if_pos (Or.inl (by decide))]
  · unfold iter.index
    split <;> rfl

/-- C13, what the code does: on the cursor `begin() + 5` of a handle over 10
elements at address 100, `operator[]` with `i = 7` yields the element at position
112, outside `[100, 110)`, with no exception; with `i = -1` it throws although
position 104 is inside. -/
theorem index_not_checked_against_position :
    ((pointer.begin ⟨100, true, 10⟩).add 5).1 = ⟨105, 110, 100, 10⟩ ∧
    (iter.index ⟨105, 110, 100, 10⟩ 7).1 = .ok 112 ∧
    ¬ ((100 : Int) ≤ 112 ∧ (112 : Int) < 110) ∧
    (iter.index ⟨105, 110, 100, 10⟩ (-1)).1 = .error .out_of_range_exc ∧
    ((100 : Int) ≤ 105 + -1 ∧ (105 : Int) + -1 < 110) := by
  refine ⟨by decide, rfl, by decide, rfl, by decide⟩

/-- C14: for every cursor, `operator*` and `operator->` yield the element at
`ptr_` if and only if `begin_ ≤ ptr_ < end_` and throw `out_of_range_exc` if and
only if not; neither changes the cursor; and both throw on the cursor returned by
`end()` of any handle and on a default-constructed cursor. -/
theorem deref_arrow_bounds (c : iter) :
    ((c.deref).1 = .ok c.ptr_ ↔ c.begin_ ≤ c.ptr_ ∧ c.ptr_ < c.end_) ∧
    ((c.deref).1 = .error .out_of_range_exc ↔ ¬ (c.begin_ ≤ c.ptr_ ∧ c.ptr_ < c.end_)) ∧
    ((c.arrow).1 = .ok c.ptr_ ↔ c.begin_ ≤ c.ptr_ ∧ c.ptr_ < c.end_) ∧
    ((c.arrow).1 = .error .out_of_range_exc ↔ ¬ (c.begin_ ≤ c.ptr_ ∧ c.ptr_ < c.end_)) ∧
    (c.deref).2 = c ∧ (c.arrow).2 = c ∧
    (∀ h : pointer, (h.end_.deref).1 = .error .out_of_range_exc ∧
      (h.end_.arrow).1 = .error .out_of_range_exc) ∧
    (iter.default_ctor.deref).1 = .error .out_of_range_exc ∧
    (iter.default_ctor.arrow).1 = .error .out_of_range_exc := by
  have key : ∀ d : iter,
      ((if d.ptr_ ≥ d.end_ ∨ d.ptr_ < d.begin_ then
          ((.error .out_of_range_exc : Except Exc Int), d) else (.ok d.ptr_, d)).1
        = .ok d.ptr_ ↔ d.begin_ ≤ d.ptr_ ∧ d.ptr_ < d.end_) ∧
      ((if d.ptr_ ≥ d.end_ ∨ d.ptr_ < d.begin_ then
          ((.error .out_of_range_exc : Except Exc Int), d) else (.ok d.ptr_, d)).1
        = .error .out_of_range_exc ↔ ¬ (d.begin_ ≤ d.ptr_ ∧ d.ptr_ < d.end_)) ∧
      (if d.ptr_ ≥ d.end_ ∨ d.ptr_ < d.begin_ then
          ((.error .out_of_range_exc : Except Exc Int), d) else (.ok d.ptr_, d)).2 = d := by
    intro d
    by_cases h : d.ptr_ ≥ d.end_ ∨ d.ptr_ < d.begin_
    · rw [if_pos h]
      refine ⟨⟨fun e => (by cases e), fun hb => (by omega)⟩,
        ⟨fun _ => (by omega), fun _ => rfl⟩, rfl⟩
    · rw [if_neg h]
      refine ⟨⟨fun _ => (by omega), fun _ => rfl⟩,
        ⟨fun e => (by cases e), fun hb => (by omega)⟩, rfl⟩
  have hend : ∀ h : pointer, h.end_.ptr_ ≥ h.end_.end_ ∨ h.end_.ptr_ < h.end_.begin_ := by
    intro h
    exact Or.inl (le_refl _)
  refine ⟨(key c).1, (key c).2.1, (key c).1, (key c).2.1, (key c).2.2, (key c).2.2, ?_, rfl, rfl⟩
  intro h
  constructor
  · unfold iter.deref
    rw [if_pos (hend h)]
  · unfold iter.arrow
    rw [if_pos (hend h)]

/-! ## The cursors of a handle -/

theorem toInt32_of_lt {n : Int} (h0 : 0 ≤ n) (h : n < 2147483648) : toInt32 n = n := by
  unfold toInt32
  split <;> omega

theorem toUnsigned_of_lt {n : Int} (h0 : 0 ≤ n) (h : n < 4294967296) :
    (toUnsigned n : Int) = n := by
  unfold toUnsigned
  omega

theorem pointer_size_eq {h : pointer} (hfit : h.elements < 2147483648) :
    h.size = (h.elements : Int) := by
  unfold pointer.size pointer.elements at *
  cases hf : h.is_array_ with
  | true =>
    rw [hf] at hfit
    simp only [if_true] at hfit ⊢
    exact toInt32_of_lt (by omega) (by omega)
  | false => simp

theorem toUnsigned_natCast {n : Nat} (h : n < 4294967296) : toUnsigned (n : Int) = n := by
  have := toUnsigned_of_lt (Int.ofNat_nonneg n) (by omega : (n : Int) < 4294967296)
  exact Int.ofNat_inj.mp this

/-- C15, the claim as stated fails: for the handle that `pointer<T, -1>` builds
over address 100, whose cached length is `4294967295`, `begin()` is the cursor
`(current = 100, begin = 100, end = 99)` and `end() - begin()` is `-1`. -/
theorem begin_end_claim_fails :
    (pointer.ctor (-1) [] 100).2 = ⟨100, true, 4294967295⟩ ∧
    pointer.elements ⟨100, true, 4294967295⟩ = 4294967295 ∧
    pointer.begin ⟨100, true, 4294967295⟩ = ⟨100, 99, 100, 4294967295⟩ ∧
    pointer.end_ ⟨100, true, 4294967295⟩ = ⟨99, 99, 100, 4294967295⟩ ∧
    (pointer.end_ ⟨100, true, 4294967295⟩).sub (pointer.begin ⟨100, true, 4294967295⟩) = -1 := by
  decide

/-- C15, amended: for every handle with address `a`, let `n` be its cached length
when its cached flag says array and 1 otherwise; if `n < 2 ^ 31` (the functions
hold it in an `int`) then `begin()` is the cursor `(current = a, begin = a,
end = a + n)`, `end()` is the cursor `(current = a + n, begin = a, end = a + n)`,
both report size `n`, and `end() - begin()` is `n`; and a handle constructed by
the class with `Size = 10` has `n = 10`. -/
theorem begin_end_effect (h : pointer) (hfit : h.elements < 2147483648) :
    h.begin.ptr_ = h.addr_ ∧ h.begin.begin_ = h.addr_ ∧
    h.begin.end_ = (h.addr_ : Int) + h.elements ∧
    h.end_.ptr_ = (h.addr_ : Int) + h.elements ∧ h.end_.begin_ = h.addr_ ∧
    h.end_.end_ = (h.addr_ : Int) + h.elements ∧
    h.begin.size = h.elements ∧ h.end_.size = h.elements ∧
    h.end_.sub h.begin = h.elements ∧
    (∀ (t : List ptr_details) (a : Nat), (pointer.ctor 10 t a).2.elements = 10) := by
  have hsize := pointer_size_eq hfit
  have hlen : toUnsigned ((h.addr_ : Int) + h.size - h.addr_) = h.elements := by
    rw [hsize]
    have e : (h.addr_ : Int) + (h.elements : Int) - h.addr_ = (h.elements : Int) := by omega
    rw [e]
    exact toUnsigned_natCast (by omega)
  have hsub : toInt32 ((h.addr_ : Int) + h.size - h.addr_) = h.elements := by
    rw [hsize]
    have e : (h.addr_ : Int) + (h.elements : Int) - h.addr_ = (h.elements : Int) := by omega
    rw [e]
    exact toInt32_of_lt (by omega) (by omega)
  refine ⟨rfl, rfl, ?_, ?_, rfl, ?_, ?_, ?_, ?_, ?_⟩
  · show (h.addr_ : Int) + h.size = _
    rw [hsize]
  · show (h.addr_ : Int) + h.size = _
    rw [hsize]
  · show (h.addr_ : Int) + h.size = _
    rw [hsize]
  · exact hlen
  · exact hlen
  · exact hsub
  · intro t a
    rfl

/-- C15, the amended claim on the handle `ap` of `main`, built over an array of
10 elements (here at address 100). -/
theorem begin_end_effect_witness :
    pointer.begin ⟨100, true, 10⟩ = ⟨100, 110, 100, 10⟩ ∧
    pointer.end_ ⟨100, true, 10⟩ = ⟨110, 110, 100, 10⟩ ∧
    (pointer.end_ ⟨100, true, 10⟩).sub (pointer.begin ⟨100, true, 10⟩) = 10 := by
  obtain ⟨_, _, _, _, _, _, _, _, hsub, _⟩ :=
    begin_end_effect ⟨100, true, 10⟩ (by decide)
  exact ⟨by decide, by decide, hsub⟩

end GC
